import Mathlib

/-!
smisp: tokenizer, tree builder and evaluator.

A shallow embedding of `src/main.cpp` (a small S-expression interpreter) and
theorems about it.

Conventions of the embedding.

* A result of type `Option _` is `none` exactly where the C++ program has
  undefined behaviour (`front()` of an empty `std::list`, `top()` of an empty
  `std::stack`).  The source has no guard at those places, so `none` is *not* a
  reported error of the program: it says that the program has no defined
  result there.
* `int` is a 32-bit two's-complement integer; `sum += v` is modelled with
  wrap-around (`wrapInt`).
* Text written to `std::cout` is not part of the values computed here, with one
  exception: the builder's bracket sanity check, which is returned as a flag.
-/

namespace Smisp

/-! ## Value model (`SObject` and its subclasses) -/

/-- The objects of the interpreter.  One constructor per concrete class of the
source: `SType`, `SName`, `SString`, `SInt`, `SList`; the field names are those
of the classes.  The test `obj->type() == SListType` (and likewise for the other
type tags) is pattern matching on the constructor. -/
inductive SObject where
  | type (mName : String)
  | name (mName : String)
  | string (mValue : String)
  | int (mValue : Int)
  | list (mList : List SObject)
deriving Repr, Inhabited

/-- Smallest value of `int`. -/
def INT_MIN : Int := -2147483648

/-- Largest value of `int`. -/
def INT_MAX : Int := 2147483647

/-- Reduction of a mathematical integer to the 32-bit two's-complement `int`
that represents it. -/
def wrapInt (x : Int) : Int := (x + 2147483648) % 4294967296 - 2147483648

/-! ## Evaluator (`SObject::eval`, `SList::eval`, `builtin_plus`) -/

mutual

/-- Virtual method `eval`: `SList` overrides it (`SList.eval`), every other
class inherits `SObject::eval`, which returns `this`. -/
def SObject.eval : SObject → Option SObject
  | .list mList => SList.eval mList
  | .type mName => some (.type mName)
  | .name mName => some (.name mName)
  | .string mValue => some (.string mValue)
  | .int mValue => some (.int mValue)

/-- Method `SList::eval`, applied to the list's `mList`.
`mList.front()` of an empty list is undefined: `none`.

The call `builtin_plus(mList)` is made on a list that has the name `+` in
front, so it is written as what `builtin_plus` does on a non-empty list: the
loop over the elements after the first, from `sum = 0` (see `builtin_plus`
below and `builtin_plus_cons`). -/
def SList.eval : List SObject → Option SObject
  | [] => none
  | first :: rest =>
    match first with
    | .list l => SObject.eval (.list l)
    | .name mName =>
      if mName = "+" then plusLoop rest 0
      else some (.string "ERR")
    | _ => some (.list (first :: rest))

/-- The `for` loop of `builtin_plus`, from the iterator position given by the
list to `args.end()`, with the current value of `sum`. -/
def plusLoop : List SObject → Int → Option SObject
  | [], sum => some (.int sum)
  | obj :: rest, sum =>
    match SObject.eval obj with
    | none => none
    | some (.int mValue) => plusLoop rest (wrapInt (sum + mValue))
    | some _ => some (.int 0)

end

/-- Function `builtin_plus`: on an empty `args` it returns `SInt(0)`;
otherwise it skips the first element (the name) and runs the loop from
`sum = 0`. -/
def builtin_plus (args : List SObject) : Option SObject :=
  match args with
  | [] => some (.int 0)
  | _ :: rest => plusLoop rest 0

/-! ## Tokens -/

/-- A token.  The class `Token` has a kind `mType` and a nullable text buffer
`mContents`; the buffer is allocated by the constructor `Token(type, c)`, which
the tokenizer uses for `TOKEN_NAME` and `TOKEN_NUMBER` and for no other kind.
The constructors below carry the buffer for exactly these two kinds. -/
inductive Token where
  | whitespace
  | startBracket
  | endBracket
  | name (mContents : String)
  | number (mContents : String)
deriving Repr, DecidableEq, Inhabited

/-! ## Tokenizer (first loop of `main`) -/

/-- Test `c >= '0' && c <= '9'`. -/
def isDigitChar (c : Char) : Bool := decide ('0' ≤ c) && decide (c ≤ '9')

/-- Test `c == ' ' || c == '\t' || c == '\n'`. -/
def isSpaceChar (c : Char) : Bool := c == ' ' || c == '\t' || c == '\n'

/-- Test `(c >= 'a' && c <= 'z') || (c >= 'A' && c <= 'Z') || c == '+'`. -/
def isNameChar (c : Char) : Bool :=
  (decide ('a' ≤ c) && decide (c ≤ 'z')) || (decide ('A' ≤ c) && decide (c ≤ 'Z')) || c == '+'

/-- One iteration of the tokenizer loop on the character `c`.

The argument is the list `tokens` in reverse order: its head is the token
pushed last, which is the one `currentToken` points to (every assignment to
`currentToken` is followed by `tokens.push_back(currentToken)`), and the empty
list is the state `currentToken == NULL`.  `Token::append` therefore rewrites
the head. -/
def tokenizeStep (tokens : List Token) (c : Char) : List Token :=
  if c = '(' then
    .startBracket :: tokens
  else if c = ')' then
    .endBracket :: tokens
  else if isDigitChar c then
    match tokens with
    | .number mContents :: older => .number (mContents.push c) :: older
    | .name mContents :: older => .name (mContents.push c) :: older
    | _ => .number (String.singleton c) :: tokens
  else if isSpaceChar c then
    match tokens with
    | .whitespace :: _ => tokens
    | _ => .whitespace :: tokens
  else if isNameChar c then
    match tokens with
    | .name mContents :: older => .name (mContents.push c) :: older
    | _ => .name (String.singleton c) :: tokens
  else
    tokens

/-- The tokenizer loop run over the characters `cs`, from the reversed token
list `tokens`. -/
def tokenizeLoop (tokens : List Token) (cs : List Char) : List Token :=
  cs.foldl tokenizeStep tokens

/-- The tokenizer: the list `tokens` after the loop over `src`, in order. -/
def tokenize (src : String) : List Token :=
  (tokenizeLoop [] src.data).reverse

/-! ## Integer extraction (`std::istringstream >> int`) -/

/-- Value of a decimal digit character. -/
def digitValue (c : Char) : Nat := c.toNat - '0'.toNat

/-- Value of a string of decimal digits read left to right after the value
`acc`. -/
def decimalValue (acc : Nat) (cs : List Char) : Nat :=
  cs.foldl (fun a c => 10 * a + digitValue c) acc

/-- White space as skipped by formatted extraction (`std::isspace`). -/
def isStreamSpace (c : Char) : Bool :=
  c == ' ' || c == '\t' || c == '\n' || c == '\x0b' || c == '\x0c' || c == '\r'

/-- The digits part of the extraction of an `int`: the longest run of decimal
digits at the front of `cs` is read, with the sign given by `negative`.  The
result is the number read, as a mathematical integer (it is reduced to `int`
by `storedInt`), and `none` when there is no digit. -/
def extractDigits (negative : Bool) (cs : List Char) : Option Int :=
  let digits := cs.takeWhile isDigitChar
  if digits.isEmpty then none
  else some (if negative then -(decimalValue 0 digits : Int) else (decimalValue 0 digits : Int))

/-- The number read by the extraction `s >> i` from a stream over `text`:
leading white space is skipped, then an optional sign and the digits are read
(`extractDigits`); what follows the digits stays in the stream. -/
def extractInt (text : String) : Option Int :=
  match text.data.dropWhile isStreamSpace with
  | '-' :: rest => extractDigits true rest
  | '+' :: rest => extractDigits false rest
  | cs => extractDigits false cs

/-- What `operator>>(int&)` stores for the number read: the number itself
when it is representable in `int`, and otherwise, with the failure flag set,
the nearest bound `INT_MIN` or `INT_MAX`. -/
def storedInt (v : Int) : Int :=
  if v < INT_MIN then INT_MIN else if INT_MAX < v then INT_MAX else v

/-- Whether the extraction `s >> i` fails (the condition `!(s >> i)` under
which `=ERR= Bad conversion` is printed): no digit could be read, or the
number read is not representable in `int`. -/
def extractFails (text : String) : Bool :=
  match extractInt text with
  | none => true
  | some v => decide (v < INT_MIN) || decide (INT_MAX < v)

/-- The statements `int i = 0; if (!(s >> i)) { ... }` of the `TOKEN_NUMBER`
case followed by the read of `i`.  The extraction writes `i` whether it
succeeds or not: the number read when it fits, `INT_MAX` or `INT_MIN` when it
is out of range, `0` when no digit could be read; the program only reports
the failure and goes on with that `i`. -/
def numberValue (mContents : String) : Int :=
  match extractInt mContents with
  | some v => storedInt v
  | none => 0

/-! ## Tree builder (second loop of `main`) -/

/-- One iteration of the builder loop on the token `t`.

The state is `nodeStack`, top first.  Each entry stands for one open `SList`
and holds the children added to it so far.  In the C++ an `SList` is linked
into its parent when it is opened (`nodeStack.top()->add(n)`) and filled
afterwards through the pointer; as every `add` goes to the list on top of the
stack, an open list is the last child of the entry below it, and here it is
attached to that entry when it is closed (and by `closeAll` for the lists
still open at the end).  `currentList` is the top of the stack throughout: it
is set to it at the start and after each push and pop.

`EndBracket` with only the root on the stack pops it and then calls `top()` on
the empty stack, which is undefined: `none`. -/
def buildStep (nodeStack : List (List SObject)) (t : Token) : Option (List (List SObject)) :=
  match t with
  | .whitespace => some nodeStack
  | .startBracket =>
    match nodeStack with
    | [] => none
    | _ :: _ => some ([] :: nodeStack)
  | .endBracket =>
    match nodeStack with
    | [] => none
    | [_] => none
    | closed :: parent :: below => some ((parent ++ [.list closed]) :: below)
  | .name mContents =>
    match nodeStack with
    | [] => none
    | currentList :: below => some ((currentList ++ [.name mContents]) :: below)
  | .number mContents =>
    match nodeStack with
    | [] => none
    | currentList :: below => some ((currentList ++ [.int (numberValue mContents)]) :: below)

/-- The builder loop over the tokens `ts`, from the stack `nodeStack`. -/
def buildLoop (nodeStack : List (List SObject)) : List Token → Option (List (List SObject))
  | [] => some nodeStack
  | t :: ts =>
    match buildStep nodeStack t with
    | none => none
    | some nodeStack1 => buildLoop nodeStack1 ts

/-- The children of the bottom list of the stack (`rootList`) when `children`
are those of the list on top and `below` is the rest of the stack: every list
still open is the last child of the entry below it. -/
def closeInto (children : List SObject) : List (List SObject) → List SObject
  | [] => children
  | parent :: below => closeInto (parent ++ [.list children]) below

/-- The children of `rootList` for a whole stack. -/
def closeAll : List (List SObject) → List SObject
  | [] => []
  | top :: below => closeInto top below

/-- What the builder leaves behind: the tree under `rootList`, and whether the
sanity check printed `=ERR= Not enough pops.` -/
structure BuildResult where
  rootList : SObject
  mismatch : Bool
deriving Repr

/-- The tree builder: the loop from a stack holding the empty `rootList`,
then the sanity check `nodeStack.size() != 1 || rootList != currentList`
(`currentList` is the top of the stack, and it is `rootList` exactly when the
stack has one entry). -/
def build (tokens : List Token) : Option BuildResult :=
  match buildLoop [[]] tokens with
  | none => none
  | some nodeStack =>
    some { rootList := .list (closeAll nodeStack), mismatch := decide (nodeStack.length ≠ 1) }

/-! ## The pipeline of `main` -/

/-- The three phases of `main` on the source text `src`, up to the value
printed after `EVAL: `. -/
def run (src : String) : Option SObject :=
  match build (tokenize src) with
  | none => none
  | some r => r.rootList.eval

/-! ## Character classes and token texts of the specification -/

/-- A letter `a`-`z` or `A`-`Z`. -/
def isLetter (c : Char) : Bool :=
  (decide ('a' ≤ c) && decide (c ≤ 'z')) || (decide ('A' ≤ c) && decide (c ≤ 'Z'))

/-- The characters the tokenizer recognizes: letters, digits, `+`, the two
parentheses, space, tab and newline. -/
def isRecognized (c : Char) : Bool :=
  isLetter c || isDigitChar c || c == '+' || c == '(' || c == ')'
    || c == ' ' || c == '\t' || c == '\n'

/-- The characters that end up in the text of a token: letters, digits, `+`
and the two parentheses. -/
def isTokenChar (c : Char) : Bool :=
  isLetter c || isDigitChar c || c == '+' || c == '(' || c == ')'

/-- The characters a token stands for: the parenthesis of a bracket token,
the text of a `Name` or `Number` token, nothing for `Whitespace`. -/
def Token.text : Token → List Char
  | .whitespace => []
  | .startBracket => ['(']
  | .endBracket => [')']
  | .name mContents => mContents.data
  | .number mContents => mContents.data

/-- The grammar rule `name := (letter | '+') (letter | digit)*`. -/
def matchesNameRule (text : String) : Bool :=
  match text.data with
  | [] => false
  | c :: cs => (isLetter c || c == '+') && cs.all (fun d => isLetter d || isDigitChar d)

/-- The rule the tokenizer follows for names: a letter or `+`, then letters,
digits and `+` in any number. -/
def matchesNameChars (text : String) : Bool :=
  match text.data with
  | [] => false
  | c :: cs => (isLetter c || c == '+') && cs.all (fun d => isLetter d || isDigitChar d || d == '+')

/-- A non-empty string of decimal digits. -/
def isDigitString (text : String) : Bool :=
  !text.data.isEmpty && text.data.all isDigitChar

/-- What the tokenizer guarantees of a token's text. -/
def Token.wellFormed : Token → Bool
  | .name mContents => matchesNameChars mContents
  | .number mContents => isDigitString mContents
  | _ => true

/-! ## Nested texts and trees -/

/-- The text made of `n` opening parentheses, the decimal digits of `k` and
`n` closing parentheses. -/
def nestedText (n k : Nat) : String :=
  String.mk (List.replicate n '(') ++ Nat.repr k ++ String.mk (List.replicate n ')')

/-- The object `x` wrapped in `n` one-element lists. -/
def nest : Nat → SObject → SObject
  | 0, x => x
  | n + 1, x => .list [nest n x]

/-- Whether the token pushed last is a `Name` or a `Number`, the kinds a digit
extends. -/
def endsInText : List Token → Bool
  | .name _ :: _ => true
  | .number _ :: _ => true
  | _ => false

/-- Whether the token pushed last is a `Name`. -/
def endsInName : List Token → Bool
  | .name _ :: _ => true
  | _ => false

/-- Whether the token pushed last is a `Whitespace`. -/
def endsInSpace : List Token → Bool
  | .whitespace :: _ => true
  | _ => false

/-! ## Bracket balance -/

/-- No prefix of `xs` has more occurrences of `closing` than `depth` plus its
occurrences of `opening`. -/
def NoExcessClose {α : Type} [BEq α] (opening closing : α) (depth : Nat) (xs : List α) : Prop :=
  ∀ n, n ≤ xs.length → (xs.take n).count closing ≤ depth + (xs.take n).count opening

instance {α : Type} [BEq α] (opening closing : α) (depth : Nat) (xs : List α) :
    Decidable (NoExcessClose opening closing depth xs) := by
  unfold NoExcessClose
  infer_instance

/-- Balanced brackets in a token sequence: no prefix has more EndBrackets than
StartBrackets, and the totals are equal. -/
def balancedTokens (ts : List Token) : Prop :=
  NoExcessClose Token.startBracket Token.endBracket 0 ts
    ∧ ts.count Token.endBracket = ts.count Token.startBracket

instance (ts : List Token) : Decidable (balancedTokens ts) := by
  unfold balancedTokens
  infer_instance

/-- For a `Number` token: its text is a non-empty digit string whose base-10
value is within the range of `int`.  (Nothing is asked of the other
tokens.) -/
def Token.numberInRange : Token → Bool
  | .number mContents =>
    isDigitString mContents && decide ((decimalValue 0 mContents.data : Int) ≤ INT_MAX)
  | _ => true

/-! ## Serialisation of trees and tokens (for the comparison of nestings) -/

/-- What remains of a token or of a tree node when white space is dropped and
numbers are taken by value. -/
inductive Mark where
  | startBracket
  | endBracket
  | name (text : String)
  | number (value : Int)
deriving Repr, DecidableEq

/-- The mark of a token: none for white space; a `Number` token has the
base-10 value of its text. -/
def Token.marks : Token → List Mark
  | .whitespace => []
  | .startBracket => [.startBracket]
  | .endBracket => [.endBracket]
  | .name mContents => [.name mContents]
  | .number mContents => [.number (decimalValue 0 mContents.data)]

mutual

/-- The marks of a tree: a list is a StartBracket, its children and an
EndBracket; `Name(n)` is a name mark; `Int(v)` is a number mark of value `v`.
(`String` and `Type` objects are never built from tokens; they have no
mark.) -/
def SObject.marks : SObject → List Mark
  | .list mList => Mark.startBracket :: (marksOfList mList ++ [Mark.endBracket])
  | .name mName => [.name mName]
  | .int mValue => [.number mValue]
  | .string _ => []
  | .type _ => []

/-- The marks of a sequence of children, in order. -/
def marksOfList : List SObject → List Mark
  | [] => []
  | obj :: rest => SObject.marks obj ++ marksOfList rest

end

/-- The marks of the entries of the stack below the top: each is an open
list, so its children are followed by the StartBracket of the entry above. -/
def openMarks : List (List SObject) → List Mark
  | [] => []
  | parent :: below => openMarks below ++ marksOfList parent ++ [Mark.startBracket]

/-- The marks of a builder stack: the tree built so far, the lists still open
having no EndBracket yet. -/
def stackMarks : List (List SObject) → List Mark
  | [] => []
  | top :: below => openMarks below ++ marksOfList top

/-! ## Nesting depth and evaluation with a bounded call depth -/

mutual

/-- Whether every list of the tree has at least one child. -/
def SObject.allNonEmpty : SObject → Bool
  | .list mList => !mList.isEmpty && allNonEmptyList mList
  | _ => true

/-- Whether every list in each of the trees has at least one child. -/
def allNonEmptyList : List SObject → Bool
  | [] => true
  | obj :: rest => SObject.allNonEmpty obj && allNonEmptyList rest

end

mutual

/-- Nesting depth of a tree: `0` for an atom, one more than the deepest child
for a list. -/
def SObject.depth : SObject → Nat
  | .list mList => depthOfList mList + 1
  | _ => 0

/-- The largest nesting depth among the trees of a sequence. -/
def depthOfList : List SObject → Nat
  | [] => 0
  | obj :: rest => max (SObject.depth obj) (depthOfList rest)

end

/-- Outcome of an evaluation run with a bound on the depth of nested calls of
`eval`: the bound was exceeded, or the evaluation ended with the given result
(`none` for an undefined one, as for `SObject.eval`). -/
inductive Bounded where
  | tooDeep
  | result (r : Option SObject)
deriving Repr

/-- The loop of `builtin_plus` (see `plusLoop`) when the calls `obj->eval()`
are made by `ev`. -/
def plusLoopWith (ev : SObject → Bounded) : List SObject → Int → Bounded
  | [], sum => .result (some (.int sum))
  | obj :: rest, sum =>
    match ev obj with
    | .tooDeep => .tooDeep
    | .result none => .result none
    | .result (some (.int mValue)) => plusLoopWith ev rest (wrapInt (sum + mValue))
    | .result (some _) => .result (some (.int 0))

/-- The evaluator (`SObject.eval`, `SList.eval`, `plusLoop`) run with at most
`budget` activations of `eval` nested in one another: each call of `eval`
takes one, and the calls it makes have what is left. -/
def evalWithin : Nat → SObject → Bounded
  | 0, _ => .tooDeep
  | _ + 1, .type mName => .result (some (.type mName))
  | _ + 1, .name mName => .result (some (.name mName))
  | _ + 1, .string mValue => .result (some (.string mValue))
  | _ + 1, .int mValue => .result (some (.int mValue))
  | _ + 1, .list [] => .result none
  | budget + 1, .list (first :: rest) =>
    match first with
    | .list l => evalWithin budget (.list l)
    | .name mName =>
      if mName = "+" then plusLoopWith (evalWithin budget) rest 0
      else .result (some (.string "ERR"))
    | _ => .result (some (.list (first :: rest)))

/-! ## Print form (`toString`) -/

/-- Method `SInt::toString`: `o << mValue`, the decimal digits of the value,
after a `-` when it is negative. -/
def SInt.toString (mValue : Int) : String :=
  if mValue < 0 then "-" ++ Nat.repr (-mValue).toNat else Nat.repr mValue.toNat

mutual

/-- Virtual method `toString` of `SType`, `SName`, `SString`, `SInt` and
`SList`. -/
def SObject.toString : SObject → String
  | .type mName => "SType(" ++ mName ++ ")"
  | .name mName => mName
  | .string mValue => mValue
  | .int mValue => SInt.toString mValue
  | .list mList => "(" ++ (toStringLoop mList true ++ ")")

/-- The `for` loop of `SList::toString`: what it writes for the elements from
the iterator position on, `first` being the flag of that name. -/
def toStringLoop : List SObject → Bool → String
  | [], _ => ""
  | obj :: rest, first =>
    (if first then "" else " ") ++ (SObject.toString obj ++ toStringLoop rest false)

end

/-- Balanced parentheses in a text: no prefix has more `)` than `(`, and the
totals are equal. -/
def balancedText (src : String) : Prop :=
  NoExcessClose '(' ')' 0 src.data ∧ src.data.count ')' = src.data.count '('

instance (src : String) : Decidable (balancedText src) := by
  unfold balancedText
  infer_instance

/-! ## Trees and tokens of a printed text -/

mutual

/-- The trees the builder makes from the tokenizer's tokens: names that
follow the tokenizer's rule, integers from `0` to `INT_MAX`, and lists of
such. -/
def SObject.printable : SObject → Bool
  | .list mList => printableList mList
  | .name mName => matchesNameChars mName
  | .int mValue => decide (0 ≤ mValue) && decide (mValue ≤ INT_MAX)
  | .string _ => false
  | .type _ => false

/-- All the trees of a sequence are `printable`. -/
def printableList : List SObject → Bool
  | [] => true
  | obj :: rest => SObject.printable obj && printableList rest

end

mutual

/-- The tokens of the print form of a tree. -/
def SObject.printTokens : SObject → List Token
  | .list mList => Token.startBracket :: (printTokensLoop mList true ++ [Token.endBracket])
  | .name mName => [.name mName]
  | .int mValue => [.number (SInt.toString mValue)]
  | .string _ => []
  | .type _ => []

/-- The tokens of what `toStringLoop` writes. -/
def printTokensLoop : List SObject → Bool → List Token
  | [], _ => []
  | obj :: rest, first =>
    (if first then [] else [Token.whitespace])
      ++ (SObject.printTokens obj ++ printTokensLoop rest false)

end

/-! ## Bracket profiles -/

/-- The bracket a character is: `true` for `(`, `false` for `)`. -/
def charBracket (c : Char) : Option Bool :=
  if c = '(' then some true else if c = ')' then some false else none

/-- The bracket a token is: `true` for a StartBracket, `false` for an
EndBracket. -/
def Token.bracket : Token → Option Bool
  | .startBracket => some true
  | .endBracket => some false
  | _ => none

/-! ## Helper lemmas: evaluator -/

/-- The call made by `SList::eval` is the call of `builtin_plus` on the whole
list. -/
theorem builtin_plus_cons (first : SObject) (rest : List SObject) :
    builtin_plus (first :: rest) = plusLoop rest 0 := rfl

theorem eval_list (mList : List SObject) : (SObject.list mList).eval = SList.eval mList := by
  rw [SObject.eval]

theorem eval_plus (rest : List SObject) :
    (SObject.list (.name "+" :: rest)).eval = plusLoop rest 0 := by
  rw [SObject.eval, SList.eval]
  simp

theorem wrapInt_of_range {x : Int} (hlo : INT_MIN ≤ x) (hhi : x ≤ INT_MAX) : wrapInt x = x := by
  unfold INT_MIN at hlo
  unfold INT_MAX at hhi
  unfold wrapInt
  omega

theorem plusLoop_int (obj : SObject) (v : Int) (rest : List SObject) (sum : Int)
    (h : obj.eval = some (.int v)) :
    plusLoop (obj :: rest) sum = plusLoop rest (wrapInt (sum + v)) := by
  rw [plusLoop, h]

/-- The loop over arguments that all evaluate to integers, the running sum
staying in range, ends with the sum. -/
theorem plusLoop_sum {rest : List SObject} {vs : List Int}
    (hargs : List.Forall₂ (fun obj v => obj.eval = some (SObject.int v)) rest vs) :
    ∀ sum : Int,
      (∀ n, n ≤ vs.length → INT_MIN ≤ sum + (vs.take n).sum ∧ sum + (vs.take n).sum ≤ INT_MAX) →
      plusLoop rest sum = some (.int (sum + vs.sum)) := by
  induction hargs with
  | nil => intro sum _; simp [plusLoop]
  | @cons obj v rest vs hobj _ ih =>
    intro sum hrange
    have h1 := hrange 1 (by simp)
    simp only [List.take_succ_cons, List.take_zero, List.sum_cons, List.sum_nil, add_zero] at h1
    rw [plusLoop_int obj v rest sum hobj, wrapInt_of_range h1.1 h1.2, ih, List.sum_cons, add_assoc]
    intro n hn
    have h2 := hrange (n + 1) (by simpa using hn)
    simpa [add_assoc] using h2

/-- The loop returns the sentinel at the first argument whose value is not an
integer, whatever follows it. -/
theorem plusLoop_abort (pre : List SObject) (bad r : SObject) (post : List SObject)
    (hpre : ∀ obj ∈ pre, ∃ v, obj.eval = some (SObject.int v))
    (hbad : bad.eval = some r) (hr : ∀ v, r ≠ SObject.int v) :
    ∀ sum : Int, plusLoop (pre ++ bad :: post) sum = some (.int 0) := by
  induction pre with
  | nil =>
    intro sum
    rw [List.nil_append, plusLoop, hbad]
    cases r with
    | int v => exact absurd rfl (hr v)
    | type _ => rfl
    | name _ => rfl
    | string _ => rfl
    | list _ => rfl
  | cons obj pre ih =>
    intro sum
    obtain ⟨v, hv⟩ := hpre obj (by simp)
    rw [List.cons_append, plusLoop_int obj v _ sum hv]
    exact ih (fun o ho => hpre o (by simp [ho])) _

/-- Wrapping the innermost object first gives the same tree. -/
theorem nest_list (n : Nat) (x : SObject) : nest n (.list [x]) = nest (n + 1) x := by
  induction n with
  | zero => rfl
  | succ n ih =>
    show SObject.list [nest n (.list [x])] = SObject.list [nest (n + 1) x]
    rw [ih]

/-- A tower of one-element lists around an integer evaluates to the innermost
list. -/
theorem eval_nest_int (n : Nat) (v : Int) :
    (nest (n + 1) (.int v)).eval = some (.list [.int v]) := by
  induction n with
  | zero => simp [nest, SObject.eval, SList.eval]
  | succ n ih =>
    have h : nest (n + 1 + 1) (.int v) = .list [.list [nest n (.int v)]] := rfl
    rw [h, SObject.eval, SList.eval]
    exact ih

/-! ## Helper lemmas: tokenizer -/

theorem tokenizeLoop_append (tokens : List Token) (cs ds : List Char) :
    tokenizeLoop tokens (cs ++ ds) = tokenizeLoop (tokenizeLoop tokens cs) ds := by
  simp [tokenizeLoop, List.foldl_append]

theorem tokenizeLoop_cons (tokens : List Token) (c : Char) (cs : List Char) :
    tokenizeLoop tokens (c :: cs) = tokenizeLoop (tokenizeStep tokens c) cs := rfl

theorem tokenizeLoop_open (n : Nat) :
    ∀ tokens, tokenizeLoop tokens (List.replicate n '(')
      = List.replicate n Token.startBracket ++ tokens := by
  induction n with
  | zero => intro tokens; rfl
  | succ n ih =>
    intro tokens
    rw [List.replicate_succ, tokenizeLoop_cons, ih, List.replicate_succ']
    simp [tokenizeStep]

theorem tokenizeLoop_close (n : Nat) :
    ∀ tokens, tokenizeLoop tokens (List.replicate n ')')
      = List.replicate n Token.endBracket ++ tokens := by
  induction n with
  | zero => intro tokens; rfl
  | succ n ih =>
    intro tokens
    rw [List.replicate_succ, tokenizeLoop_cons, ih, List.replicate_succ']
    simp [tokenizeStep]

theorem isDigitChar_ne_open {c : Char} (h : isDigitChar c = true) : c ≠ '(' := by
  rintro rfl
  revert h
  decide

theorem isDigitChar_ne_close {c : Char} (h : isDigitChar c = true) : c ≠ ')' := by
  rintro rfl
  revert h
  decide

/-- A digit after an open `Number` token extends it. -/
theorem tokenizeStep_number_digit (s : String) (older : List Token) {c : Char}
    (h : isDigitChar c = true) :
    tokenizeStep (.number s :: older) c = .number (s.push c) :: older := by
  simp [tokenizeStep, h, isDigitChar_ne_open h, isDigitChar_ne_close h]

/-- A digit after a bracket starts a `Number` token. -/
theorem tokenizeStep_open_digit (older : List Token) {c : Char} (h : isDigitChar c = true) :
    tokenizeStep (.startBracket :: older) c
      = .number (String.singleton c) :: .startBracket :: older := by
  simp [tokenizeStep, h, isDigitChar_ne_open h, isDigitChar_ne_close h]

theorem tokenizeLoop_number_digits (cs : List Char) (hcs : ∀ c ∈ cs, isDigitChar c = true) :
    ∀ (s : String) (older : List Token),
      tokenizeLoop (.number s :: older) cs = .number (s ++ String.mk cs) :: older := by
  induction cs with
  | nil =>
    intro s older
    have h : s ++ String.mk [] = s := by
      apply String.ext
      simp
    rw [h]
    rfl
  | cons c cs ih =>
    intro s older
    rw [tokenizeLoop_cons, tokenizeStep_number_digit s older (hcs c (by simp)),
      ih (fun d hd => hcs d (by simp [hd]))]
    have h : s.push c ++ String.mk cs = s ++ String.mk (c :: cs) := by
      apply String.ext
      simp
    rw [h]

/-! ## Helper lemmas: decimal digits -/

theorem isDigitChar_digitChar : ∀ m, m < 10 → isDigitChar (Nat.digitChar m) = true := by
  decide

theorem digitValue_digitChar : ∀ m, m < 10 → digitValue (Nat.digitChar m) = m := by
  decide

theorem toDigitsCore_all_digits (fuel : Nat) :
    ∀ (n : Nat) (ds : List Char), (∀ c ∈ ds, isDigitChar c = true) →
      ∀ c ∈ Nat.toDigitsCore 10 fuel n ds, isDigitChar c = true := by
  induction fuel with
  | zero => intro n ds hds; simpa [Nat.toDigitsCore] using hds
  | succ fuel ih =>
    intro n ds hds
    have hd : isDigitChar (Nat.digitChar (n % 10)) = true :=
      isDigitChar_digitChar _ (Nat.mod_lt _ (by decide))
    have hcons : ∀ c ∈ Nat.digitChar (n % 10) :: ds, isDigitChar c = true := by
      intro c hc
      rcases List.mem_cons.1 hc with rfl | hc
      · exact hd
      · exact hds c hc
    rw [Nat.toDigitsCore]
    split
    · exact hcons
    · exact ih _ _ hcons

theorem toDigitsCore_ne_nil (fuel : Nat) :
    ∀ (n : Nat) (ds : List Char), ds ≠ [] → Nat.toDigitsCore 10 fuel n ds ≠ [] := by
  induction fuel with
  | zero => intro n ds hds; simpa [Nat.toDigitsCore] using hds
  | succ fuel ih =>
    intro n ds _
    rw [Nat.toDigitsCore]
    split
    · simp
    · exact ih _ _ (by simp)

theorem toDigits_ne_nil (k : Nat) : Nat.toDigits 10 k ≠ [] := by
  rw [Nat.toDigits, Nat.toDigitsCore]
  split
  · simp
  · exact toDigitsCore_ne_nil _ _ _ (by simp)

theorem decimalValue_cons (acc : Nat) (c : Char) (cs : List Char) :
    decimalValue acc (c :: cs) = decimalValue (10 * acc + digitValue c) cs := rfl

theorem decimalValue_toDigitsCore (fuel : Nat) :
    ∀ (n : Nat) (ds : List Char), n < fuel →
      decimalValue 0 (Nat.toDigitsCore 10 fuel n ds) = decimalValue n ds := by
  induction fuel with
  | zero => intro n ds h; omega
  | succ fuel ih =>
    intro n ds hn
    have hd : digitValue (Nat.digitChar (n % 10)) = n % 10 :=
      digitValue_digitChar _ (Nat.mod_lt _ (by decide))
    rw [Nat.toDigitsCore]
    split
    · rename_i h0
      rw [decimalValue_cons, hd]
      congr 1
      omega
    · rename_i h0
      rw [ih _ _ (by omega), decimalValue_cons, hd]
      congr 1
      omega

/-- Reading back the decimal digits of `k` gives `k`. -/
theorem decimalValue_toDigits (k : Nat) : decimalValue 0 (Nat.toDigits 10 k) = k := by
  rw [Nat.toDigits, decimalValue_toDigitsCore (k + 1) k [] (by omega)]
  rfl

theorem isDigitChar_not_space : ∀ {c : Char}, isDigitChar c = true → isStreamSpace c = false := by
  intro c h
  by_contra hs
  simp only [isStreamSpace, Bool.not_eq_false, Bool.or_eq_true, beq_iff_eq] at hs
  rcases hs with ((((rfl | rfl) | rfl) | rfl) | rfl) | rfl <;> revert h <;> decide

theorem isDigitChar_ne_minus {c : Char} (h : isDigitChar c = true) : c ≠ '-' := by
  rintro rfl
  revert h
  decide

theorem isDigitChar_ne_plus {c : Char} (h : isDigitChar c = true) : c ≠ '+' := by
  rintro rfl
  revert h
  decide

/-- A number from `0` to `INT_MAX` is stored as it is. -/
theorem storedInt_of_range {v : Int} (h0 : 0 ≤ v) (h1 : v ≤ INT_MAX) : storedInt v = v := by
  unfold storedInt
  unfold INT_MAX at h1
  rw [if_neg (by unfold INT_MIN; omega), if_neg (by unfold INT_MAX; omega)]

/-- A number above `INT_MAX` is stored as `INT_MAX`. -/
theorem storedInt_of_large {v : Int} (h : INT_MAX < v) : storedInt v = INT_MAX := by
  unfold storedInt
  rw [if_neg (by unfold INT_MAX at h; unfold INT_MIN; omega), if_pos h]

/-- The number read from a non-empty string of digits is its decimal
value. -/
theorem extractInt_digits (cs : List Char) (hne : cs ≠ [])
    (hall : ∀ c ∈ cs, isDigitChar c = true) :
    extractInt (String.mk cs) = some (decimalValue 0 cs : Int) := by
  cases cs with
  | nil => exact absurd rfl hne
  | cons d ds =>
    have hd : isDigitChar d = true := hall d (by simp)
    have htake : List.takeWhile isDigitChar (d :: ds) = d :: ds :=
      List.takeWhile_eq_self_iff.2 hall
    have hdrop : List.dropWhile isStreamSpace (d :: ds) = d :: ds := by
      simp [List.dropWhile_cons, isDigitChar_not_space hd]
    unfold extractInt
    simp only [hdrop]
    split
    · rename_i rest hcs
      exact absurd (List.cons.inj hcs).1 (isDigitChar_ne_minus hd)
    · rename_i rest hcs
      exact absurd (List.cons.inj hcs).1 (isDigitChar_ne_plus hd)
    · simp [extractDigits, htake]

theorem numberValue_repr (k : Nat) (hk : (k : Int) ≤ INT_MAX) :
    numberValue (Nat.repr k) = (k : Int) := by
  have h := extractInt_digits (Nat.toDigits 10 k) (toDigits_ne_nil k)
    (toDigitsCore_all_digits _ _ _ (by simp))
  rw [decimalValue_toDigits] at h
  unfold numberValue
  rw [show Nat.repr k = String.mk (Nat.toDigits 10 k) from rfl, h]
  exact storedInt_of_range (by omega) hk

/-- Tokens of a nested integer: `n` opening brackets, one number, `n` closing
brackets. -/
theorem tokenize_nestedText (n k : Nat) (hn : 1 ≤ n) :
    tokenize (nestedText n k)
      = List.replicate n Token.startBracket
          ++ Token.number (Nat.repr k) :: List.replicate n Token.endBracket := by
  obtain ⟨m, rfl⟩ : ∃ m, n = m + 1 := ⟨n - 1, by omega⟩
  have hdata : (nestedText (m + 1) k).data
      = List.replicate (m + 1) '(' ++ (Nat.toDigits 10 k ++ List.replicate (m + 1) ')') := by
    simp [nestedText, Nat.repr, List.asString]
  have hall : ∀ c ∈ Nat.toDigits 10 k, isDigitChar c = true :=
    toDigitsCore_all_digits _ _ _ (by simp)
  have hrepr : Nat.repr k = String.mk (Nat.toDigits 10 k) := rfl
  rw [tokenize, hdata, tokenizeLoop_append, tokenizeLoop_append, tokenizeLoop_open, hrepr]
  cases hdig : Nat.toDigits 10 k with
  | nil => exact absurd hdig (toDigits_ne_nil k)
  | cons d ds =>
    rw [hdig] at hall
    rw [tokenizeLoop_cons, List.append_nil, List.replicate_succ,
      tokenizeStep_open_digit _ (hall d (by simp)),
      tokenizeLoop_number_digits ds (fun c hc => hall c (by simp [hc])), tokenizeLoop_close]
    have hs : String.singleton d ++ String.mk ds = String.mk (d :: ds) := by
      apply String.ext
      simp [String.singleton]
    rw [hs, ← List.replicate_succ, List.reverse_append, List.reverse_cons,
      List.reverse_replicate, List.reverse_replicate]
    simp

/-! ## Helper lemmas: tree builder -/

theorem buildLoop_cons (nodeStack : List (List SObject)) (t : Token) (ts : List Token) :
    buildLoop nodeStack (t :: ts)
      = (buildStep nodeStack t).bind (fun nodeStack1 => buildLoop nodeStack1 ts) := by
  rw [buildLoop]
  cases buildStep nodeStack t <;> rfl

theorem buildLoop_open (n : Nat) :
    ∀ (top : List SObject) (below : List (List SObject)) (ts : List Token),
      buildLoop (top :: below) (List.replicate n Token.startBracket ++ ts)
        = buildLoop (List.replicate n [] ++ top :: below) ts := by
  induction n with
  | zero => intro top below ts; rfl
  | succ n ih =>
    intro top below ts
    rw [List.replicate_succ, List.cons_append, buildLoop_cons]
    simp only [buildStep, Option.some_bind]
    rw [ih, List.replicate_succ']
    simp

theorem buildLoop_close (n : Nat) :
    ∀ (x : SObject) (ts : List Token),
      buildLoop ([x] :: List.replicate n []) (List.replicate n Token.endBracket ++ ts)
        = buildLoop [[nest n x]] ts := by
  induction n with
  | zero => intro x ts; rfl
  | succ n ih =>
    intro x ts
    rw [List.replicate_succ, List.replicate_succ, List.cons_append, buildLoop_cons]
    simp only [buildStep, Option.some_bind, List.nil_append]
    rw [ih, nest_list]

/-! ## Helper lemmas: character classes -/

theorem char_le_iff (c d : Char) : c ≤ d ↔ c.toNat ≤ d.toNat := Iff.rfl

theorem char_eq_iff (c d : Char) : c = d ↔ c.toNat = d.toNat := by
  constructor
  · rintro rfl; rfl
  · intro h
    exact Char.ext (UInt32.ext h)

theorem isDigitChar_iff (c : Char) : isDigitChar c = true ↔ 48 ≤ c.toNat ∧ c.toNat ≤ 57 := by
  simp only [isDigitChar, Bool.and_eq_true, decide_eq_true_eq, char_le_iff]
  exact Iff.rfl

theorem isLetter_iff (c : Char) :
    isLetter c = true ↔ (97 ≤ c.toNat ∧ c.toNat ≤ 122) ∨ (65 ≤ c.toNat ∧ c.toNat ≤ 90) := by
  simp only [isLetter, Bool.or_eq_true, Bool.and_eq_true, decide_eq_true_eq, char_le_iff]
  exact Iff.rfl

theorem isNameChar_iff (c : Char) :
    isNameChar c = true
      ↔ (97 ≤ c.toNat ∧ c.toNat ≤ 122) ∨ (65 ≤ c.toNat ∧ c.toNat ≤ 90) ∨ c.toNat = 43 := by
  simp only [isNameChar, Bool.or_eq_true, Bool.and_eq_true, decide_eq_true_eq, char_le_iff,
    beq_iff_eq, char_eq_iff c '+', or_assoc]
  exact Iff.rfl

theorem isSpaceChar_iff (c : Char) :
    isSpaceChar c = true ↔ c.toNat = 32 ∨ c.toNat = 9 ∨ c.toNat = 10 := by
  simp only [isSpaceChar, Bool.or_eq_true, beq_iff_eq, char_eq_iff c ' ', char_eq_iff c '\t',
    char_eq_iff c '\n', or_assoc]
  exact Iff.rfl

theorem eq_open_iff (c : Char) : c = '(' ↔ c.toNat = 40 := char_eq_iff c '('

theorem eq_close_iff (c : Char) : c = ')' ↔ c.toNat = 41 := char_eq_iff c ')'

theorem isNameChar_eq (c : Char) : isNameChar c = (isLetter c || c == '+') := rfl

theorem isTokenChar_iff (c : Char) :
    isTokenChar c = true
      ↔ isNameChar c = true ∨ isDigitChar c = true ∨ c = '(' ∨ c = ')' := by
  simp only [isTokenChar, isNameChar_eq, Bool.or_eq_true, beq_iff_eq]
  tauto

theorem isRecognized_iff (c : Char) :
    isRecognized c = true
      ↔ c = '(' ∨ c = ')' ∨ isDigitChar c = true ∨ isSpaceChar c = true ∨ isNameChar c = true := by
  simp only [isRecognized, isNameChar_eq, isSpaceChar, Bool.or_eq_true, beq_iff_eq]
  tauto

/-! ## Helper lemmas: one step of the tokenizer, by character class -/

theorem tokenizeStep_openParen (tokens : List Token) :
    tokenizeStep tokens '(' = .startBracket :: tokens := rfl

theorem tokenizeStep_closeParen (tokens : List Token) :
    tokenizeStep tokens ')' = .endBracket :: tokens := rfl

theorem isSpaceChar_classes {c : Char} (h : isSpaceChar c = true) :
    c ≠ '(' ∧ c ≠ ')' ∧ isDigitChar c = false := by
  rw [Ne, Ne, eq_open_iff, eq_close_iff, ← Bool.not_eq_true, isDigitChar_iff]
  rw [isSpaceChar_iff] at h
  omega

theorem isNameChar_classes {c : Char} (h : isNameChar c = true) :
    c ≠ '(' ∧ c ≠ ')' ∧ isDigitChar c = false ∧ isSpaceChar c = false := by
  rw [Ne, Ne, eq_open_iff, eq_close_iff, ← Bool.not_eq_true, ← Bool.not_eq_true,
    isDigitChar_iff, isSpaceChar_iff]
  rw [isNameChar_iff] at h
  omega

/-- A digit after an open `Name` token extends it. -/
theorem tokenizeStep_name_digit (s : String) (older : List Token) {c : Char}
    (h : isDigitChar c = true) :
    tokenizeStep (.name s :: older) c = .name (s.push c) :: older := by
  simp [tokenizeStep, h, isDigitChar_ne_open h, isDigitChar_ne_close h]

/-- A digit after anything but an open `Name` or `Number` token starts a
`Number` token. -/
theorem tokenizeStep_new_digit (tokens : List Token) {c : Char} (h : isDigitChar c = true)
    (hclosed : endsInText tokens = false) :
    tokenizeStep tokens c = .number (String.singleton c) :: tokens := by
  cases tokens with
  | nil => simp [tokenizeStep, h, isDigitChar_ne_open h, isDigitChar_ne_close h]
  | cons t ts =>
    cases t <;> first
      | (simp [endsInText] at hclosed; done)
      | simp [tokenizeStep, h, isDigitChar_ne_open h, isDigitChar_ne_close h]

/-- White space after a `Whitespace` token adds nothing. -/
theorem tokenizeStep_space_space (older : List Token) {c : Char} (h : isSpaceChar c = true) :
    tokenizeStep (.whitespace :: older) c = .whitespace :: older := by
  obtain ⟨h1, h2, h3⟩ := isSpaceChar_classes h
  simp [tokenizeStep, h, h1, h2, h3]

/-- White space after anything but a `Whitespace` token starts one. -/
theorem tokenizeStep_new_space (tokens : List Token) {c : Char} (h : isSpaceChar c = true)
    (hclosed : endsInSpace tokens = false) :
    tokenizeStep tokens c = .whitespace :: tokens := by
  obtain ⟨h1, h2, h3⟩ := isSpaceChar_classes h
  cases tokens with
  | nil => simp [tokenizeStep, h, h1, h2, h3]
  | cons t ts =>
    cases t <;> first
      | (simp [endsInSpace] at hclosed; done)
      | simp [tokenizeStep, h, h1, h2, h3]

/-- A letter or `+` after an open `Name` token extends it. -/
theorem tokenizeStep_name_nameChar (s : String) (older : List Token) {c : Char}
    (h : isNameChar c = true) :
    tokenizeStep (.name s :: older) c = .name (s.push c) :: older := by
  obtain ⟨h1, h2, h3, h4⟩ := isNameChar_classes h
  simp [tokenizeStep, h, h1, h2, h3, h4]

/-- A letter or `+` after anything but an open `Name` token starts a `Name`
token. -/
theorem tokenizeStep_new_nameChar (tokens : List Token) {c : Char} (h : isNameChar c = true)
    (hclosed : endsInName tokens = false) :
    tokenizeStep tokens c = .name (String.singleton c) :: tokens := by
  obtain ⟨h1, h2, h3, h4⟩ := isNameChar_classes h
  cases tokens with
  | nil => simp [tokenizeStep, h, h1, h2, h3, h4]
  | cons t ts =>
    cases t <;> first
      | (simp [endsInName] at hclosed; done)
      | simp [tokenizeStep, h, h1, h2, h3, h4]

theorem tokenizeStep_unrecognized (tokens : List Token) {c : Char}
    (h : isRecognized c = false) : tokenizeStep tokens c = tokens := by
  rw [← Bool.not_eq_true, isRecognized_iff] at h
  simp only [not_or, Bool.not_eq_true] at h
  obtain ⟨h1, h2, h3, h4, h5⟩ := h
  simp [tokenizeStep, h1, h2, h3, h4, h5]

/-- Every character is of exactly one of the kinds the loop distinguishes. -/
theorem char_kind (c : Char) :
    c = '(' ∨ c = ')' ∨ isDigitChar c = true ∨ isSpaceChar c = true ∨ isNameChar c = true
      ∨ isRecognized c = false := by
  by_cases h : isRecognized c = true
  · have := (isRecognized_iff c).1 h
    tauto
  · simp only [Bool.not_eq_true] at h
    tauto

theorem isSpaceChar_not_tokenChar {c : Char} (h : isSpaceChar c = true) :
    isTokenChar c = false := by
  rw [← Bool.not_eq_true, isTokenChar_iff, isNameChar_iff, isDigitChar_iff, eq_open_iff,
    eq_close_iff]
  rw [isSpaceChar_iff] at h
  omega

theorem unrecognized_not_tokenChar {c : Char} (h : isRecognized c = false) :
    isTokenChar c = false := by
  rw [← Bool.not_eq_true, isRecognized_iff] at h
  rw [← Bool.not_eq_true, isTokenChar_iff]
  tauto

/-- What one step of the tokenizer can do to the reversed token list: leave
it alone (unrecognized character, or white space after white space), push a
new token, or extend the text of the token pushed last. -/
theorem tokenizeStep_shape (tokens : List Token) (c : Char) :
    (isTokenChar c = false ∧ tokenizeStep tokens c = tokens)
      ∨ (isTokenChar c = false ∧ tokenizeStep tokens c = .whitespace :: tokens)
      ∨ (c = '(' ∧ tokenizeStep tokens c = .startBracket :: tokens)
      ∨ (c = ')' ∧ tokenizeStep tokens c = .endBracket :: tokens)
      ∨ (isDigitChar c = true ∧ tokenizeStep tokens c = .number (String.singleton c) :: tokens)
      ∨ (isNameChar c = true ∧ tokenizeStep tokens c = .name (String.singleton c) :: tokens)
      ∨ (∃ s older, tokens = .name s :: older ∧ (isNameChar c = true ∨ isDigitChar c = true)
          ∧ tokenizeStep tokens c = .name (s.push c) :: older)
      ∨ (∃ s older, tokens = .number s :: older ∧ isDigitChar c = true
          ∧ tokenizeStep tokens c = .number (s.push c) :: older) := by
  rcases char_kind c with rfl | rfl | h | h | h | h
  · exact Or.inr (Or.inr (Or.inl ⟨rfl, rfl⟩))
  · exact Or.inr (Or.inr (Or.inr (Or.inl ⟨rfl, rfl⟩)))
  · cases htext : endsInText tokens with
    | false =>
      exact Or.inr (Or.inr (Or.inr (Or.inr (Or.inl ⟨h, tokenizeStep_new_digit tokens h htext⟩))))
    | true =>
      match tokens, htext with
      | .name s :: older, _ =>
        exact Or.inr (Or.inr (Or.inr (Or.inr (Or.inr (Or.inr (Or.inl
          ⟨s, older, rfl, Or.inr h, tokenizeStep_name_digit s older h⟩))))))
      | .number s :: older, _ =>
        exact Or.inr (Or.inr (Or.inr (Or.inr (Or.inr (Or.inr (Or.inr
          ⟨s, older, rfl, h, tokenizeStep_number_digit s older h⟩))))))
  · cases hsp : endsInSpace tokens with
    | false =>
      exact Or.inr (Or.inl ⟨isSpaceChar_not_tokenChar h, tokenizeStep_new_space tokens h hsp⟩)
    | true =>
      match tokens, hsp with
      | .whitespace :: older, _ =>
        exact Or.inl ⟨isSpaceChar_not_tokenChar h, tokenizeStep_space_space older h⟩
  · cases hnm : endsInName tokens with
    | false =>
      exact Or.inr (Or.inr (Or.inr (Or.inr (Or.inr (Or.inl
        ⟨h, tokenizeStep_new_nameChar tokens h hnm⟩)))))
    | true =>
      match tokens, hnm with
      | .name s :: older, _ =>
        exact Or.inr (Or.inr (Or.inr (Or.inr (Or.inr (Or.inr (Or.inl
          ⟨s, older, rfl, Or.inl h, tokenizeStep_name_nameChar s older h⟩))))))
  · exact Or.inl ⟨unrecognized_not_tokenChar h, tokenizeStep_unrecognized tokens h⟩

/-! ## Helper lemmas: the tokenizer and the characters of the text -/

theorem tokenizeLoop_filter (cs : List Char) :
    ∀ tokens, tokenizeLoop tokens (cs.filter isRecognized) = tokenizeLoop tokens cs := by
  induction cs with
  | nil => intro tokens; rfl
  | cons c cs ih =>
    intro tokens
    cases h : isRecognized c with
    | true => rw [List.filter_cons_of_pos h, tokenizeLoop_cons, tokenizeLoop_cons, ih]
    | false =>
      rw [List.filter_cons_of_neg (by simp [h]), tokenizeLoop_cons,
        tokenizeStep_unrecognized tokens h, ih]

theorem isTokenChar_of_digit {c : Char} (h : isDigitChar c = true) : isTokenChar c = true :=
  (isTokenChar_iff c).2 (Or.inr (Or.inl h))

theorem isTokenChar_of_nameChar {c : Char} (h : isNameChar c = true) : isTokenChar c = true :=
  (isTokenChar_iff c).2 (Or.inl h)

/-- One step adds the character to the text of the tokens when it is a token
character, and nothing otherwise. -/
theorem tokenizeStep_text (tokens : List Token) (c : Char) :
    (tokenizeStep tokens c).reverse.flatMap Token.text
      = tokens.reverse.flatMap Token.text ++ (if isTokenChar c = true then [c] else []) := by
  rcases tokenizeStep_shape tokens c with ⟨h, e⟩ | ⟨h, e⟩ | ⟨rfl, e⟩ | ⟨rfl, e⟩ | ⟨h, e⟩ | ⟨h, e⟩
    | ⟨s, older, rfl, h, e⟩ | ⟨s, older, rfl, h, e⟩
  · simp [e, h]
  · simp [e, h, Token.text]
  · rw [e]; simp [Token.text]; rfl
  · rw [e]; simp [Token.text]; rfl
  · simp [e, isTokenChar_of_digit h, Token.text, String.singleton]
  · simp [e, isTokenChar_of_nameChar h, Token.text, String.singleton]
  · have ht : isTokenChar c = true := by
      rcases h with h | h
      · exact isTokenChar_of_nameChar h
      · exact isTokenChar_of_digit h
    simp [e, ht, Token.text]
  · simp [e, isTokenChar_of_digit h, Token.text]

theorem tokenizeLoop_text (cs : List Char) :
    ∀ tokens, (tokenizeLoop tokens cs).reverse.flatMap Token.text
      = tokens.reverse.flatMap Token.text ++ cs.filter isTokenChar := by
  induction cs with
  | nil => intro tokens; simp [tokenizeLoop]
  | cons c cs ih =>
    intro tokens
    rw [tokenizeLoop_cons, ih, tokenizeStep_text]
    cases h : isTokenChar c <;> simp [h]

/-! ## Helper lemmas: shape of the token texts -/

theorem matchesNameChars_singleton {c : Char} (h : isNameChar c = true) :
    matchesNameChars (String.singleton c) = true := by
  rw [isNameChar_eq] at h
  simp [matchesNameChars, String.singleton, h]

theorem matchesNameChars_push {s : String} {c : Char} (hs : matchesNameChars s = true)
    (h : isNameChar c = true ∨ isDigitChar c = true) :
    matchesNameChars (s.push c) = true := by
  have hc : (isLetter c || isDigitChar c || c == '+') = true := by
    rcases h with h | h
    · rw [isNameChar_eq] at h
      simp only [Bool.or_eq_true] at h ⊢
      tauto
    · simp [h]
  unfold matchesNameChars at hs ⊢
  rw [String.data_push]
  cases hd : s.data with
  | nil => rw [hd] at hs; simp at hs
  | cons c0 cs0 =>
    rw [hd] at hs
    simp only [List.cons_append, Bool.and_eq_true, List.all_append, List.all_cons, List.all_nil,
      Bool.and_true] at hs ⊢
    exact ⟨hs.1, hs.2, hc⟩

theorem isDigitString_singleton {c : Char} (h : isDigitChar c = true) :
    isDigitString (String.singleton c) = true := by
  simp [isDigitString, String.singleton, h]

theorem isDigitString_push {s : String} {c : Char} (hs : isDigitString s = true)
    (h : isDigitChar c = true) : isDigitString (s.push c) = true := by
  unfold isDigitString at hs ⊢
  rw [String.data_push]
  simp only [Bool.and_eq_true, Bool.not_eq_true', List.all_append, List.all_cons, List.all_nil,
    Bool.and_true] at hs ⊢
  exact ⟨by simp, hs.2, h⟩

/-- One step keeps every token well formed. -/
theorem tokenizeStep_wellFormed (tokens : List Token) (c : Char)
    (h : ∀ t ∈ tokens, Token.wellFormed t = true) :
    ∀ t ∈ tokenizeStep tokens c, Token.wellFormed t = true := by
  rcases tokenizeStep_shape tokens c with ⟨_, e⟩ | ⟨_, e⟩ | ⟨_, e⟩ | ⟨_, e⟩ | ⟨hc, e⟩ | ⟨hc, e⟩
    | ⟨s, older, rfl, hc, e⟩ | ⟨s, older, rfl, hc, e⟩
  all_goals
    rw [e]
    intro t ht
  · exact h t ht
  · rcases List.mem_cons.1 ht with rfl | ht
    · rfl
    · exact h t ht
  · rcases List.mem_cons.1 ht with rfl | ht
    · rfl
    · exact h t ht
  · rcases List.mem_cons.1 ht with rfl | ht
    · rfl
    · exact h t ht
  · rcases List.mem_cons.1 ht with rfl | ht
    · exact isDigitString_singleton hc
    · exact h t ht
  · rcases List.mem_cons.1 ht with rfl | ht
    · exact matchesNameChars_singleton hc
    · exact h t ht
  · rcases List.mem_cons.1 ht with rfl | ht
    · exact matchesNameChars_push (h (.name s) (by simp)) hc
    · exact h t (by simp [ht])
  · rcases List.mem_cons.1 ht with rfl | ht
    · exact isDigitString_push (h (.number s) (by simp)) hc
    · exact h t (by simp [ht])

theorem tokenizeLoop_wellFormed (cs : List Char) :
    ∀ tokens, (∀ t ∈ tokens, Token.wellFormed t = true) →
      ∀ t ∈ tokenizeLoop tokens cs, Token.wellFormed t = true := by
  induction cs with
  | nil => intro tokens h; exact h
  | cons c cs ih =>
    intro tokens h
    rw [tokenizeLoop_cons]
    exact ih _ (tokenizeStep_wellFormed tokens c h)

/-- Every token of the tokenizer is well formed. -/
theorem tokenize_wellFormed (src : String) :
    ∀ t ∈ tokenize src, Token.wellFormed t = true := by
  intro t ht
  rw [tokenize, List.mem_reverse] at ht
  exact tokenizeLoop_wellFormed _ [] (by simp) t ht

/-! ## Helper lemmas: runs of name characters and digits -/

theorem tokenizeLoop_name_run (cs : List Char)
    (hcs : ∀ c ∈ cs, isNameChar c = true ∨ isDigitChar c = true) :
    ∀ (s : String) (older : List Token),
      tokenizeLoop (.name s :: older) cs = .name (s ++ String.mk cs) :: older := by
  induction cs with
  | nil =>
    intro s older
    have h : s ++ String.mk [] = s := by
      apply String.ext
      simp
    rw [h]
    rfl
  | cons c cs ih =>
    intro s older
    have hstep : tokenizeStep (.name s :: older) c = .name (s.push c) :: older := by
      rcases hcs c (by simp) with h | h
      · exact tokenizeStep_name_nameChar s older h
      · exact tokenizeStep_name_digit s older h
    rw [tokenizeLoop_cons, hstep, ih (fun d hd => hcs d (by simp [hd]))]
    have h : s.push c ++ String.mk cs = s ++ String.mk (c :: cs) := by
      apply String.ext
      simp
    rw [h]

theorem singleton_append_mk (c : Char) (cs : List Char) :
    String.singleton c ++ String.mk cs = String.mk (c :: cs) := by
  apply String.ext
  simp [String.singleton]

/-- A name text read after anything but an open `Name` token gives one `Name`
token. -/
theorem tokenizeLoop_new_name (tokens : List Token) (c : Char) (cs : List Char)
    (hclosed : endsInName tokens = false) (hc : isNameChar c = true)
    (hcs : ∀ d ∈ cs, isNameChar d = true ∨ isDigitChar d = true) :
    tokenizeLoop tokens (c :: cs) = .name (String.mk (c :: cs)) :: tokens := by
  rw [tokenizeLoop_cons, tokenizeStep_new_nameChar tokens hc hclosed,
    tokenizeLoop_name_run cs hcs, singleton_append_mk]

/-- A digit string read after anything but an open `Name` or `Number` token
gives one `Number` token. -/
theorem tokenizeLoop_new_number (tokens : List Token) (c : Char) (cs : List Char)
    (hclosed : endsInText tokens = false) (hc : isDigitChar c = true)
    (hcs : ∀ d ∈ cs, isDigitChar d = true) :
    tokenizeLoop tokens (c :: cs) = .number (String.mk (c :: cs)) :: tokens := by
  rw [tokenizeLoop_cons, tokenizeStep_new_digit tokens hc hclosed,
    tokenizeLoop_number_digits cs hcs, singleton_append_mk]

theorem isNameChar_of_letter {c : Char} (h : isLetter c = true) : isNameChar c = true := by
  simp [isNameChar_eq, h]

/-! ## Helper lemmas: bracket balance -/

theorem noExcessClose_nil {α : Type} [BEq α] (o c : α) (d : Nat) :
    NoExcessClose o c d ([] : List α) := by
  intro n _
  simp

theorem noExcessClose_cons_open {α : Type} [DecidableEq α] {o c : α} (hoc : o ≠ c) (d : Nat)
    (xs : List α) :
    NoExcessClose o c d (o :: xs) ↔ NoExcessClose o c (d + 1) xs := by
  constructor
  · intro h n hn
    have h1 := h (n + 1) (by simpa using hn)
    simp only [List.take_succ_cons, List.count_cons, beq_self_eq_true, if_true,
      beq_iff_eq, hoc, if_false] at h1
    omega
  · intro h n hn
    cases n with
    | zero => simp
    | succ n =>
      have h1 := h n (by simpa using hn)
      simp only [List.take_succ_cons, List.count_cons, beq_self_eq_true, if_true,
        beq_iff_eq, hoc, if_false]
      omega

theorem noExcessClose_cons_close {α : Type} [DecidableEq α] {o c : α} (hoc : o ≠ c) (d : Nat)
    (xs : List α) :
    NoExcessClose o c d (c :: xs) ↔ 1 ≤ d ∧ NoExcessClose o c (d - 1) xs := by
  have hco : c ≠ o := fun h => hoc h.symm
  constructor
  · intro h
    have h0 := h 1 (by simp)
    simp only [List.take_succ_cons, List.take_zero, List.count_cons, List.count_nil,
      beq_self_eq_true, if_true, beq_iff_eq, hco, if_false] at h0
    refine ⟨by omega, ?_⟩
    intro n hn
    have h1 := h (n + 1) (by simpa using hn)
    simp only [List.take_succ_cons, List.count_cons, beq_self_eq_true, if_true,
      beq_iff_eq, hco, if_false] at h1
    omega
  · rintro ⟨hd, h⟩ n hn
    cases n with
    | zero => simp
    | succ n =>
      have h1 := h n (by simpa using hn)
      simp only [List.take_succ_cons, List.count_cons, beq_self_eq_true, if_true,
        beq_iff_eq, hco, if_false]
      omega

theorem noExcessClose_cons_other {α : Type} [DecidableEq α] {o c x : α} (hxo : x ≠ o)
    (hxc : x ≠ c) (d : Nat) (xs : List α) :
    NoExcessClose o c d (x :: xs) ↔ NoExcessClose o c d xs := by
  constructor
  · intro h n hn
    have h1 := h (n + 1) (by simpa using hn)
    simp only [List.take_succ_cons, List.count_cons, beq_iff_eq, hxo, hxc, if_false] at h1
    omega
  · intro h n hn
    cases n with
    | zero => simp
    | succ n =>
      have h1 := h n (by simpa using hn)
      simp only [List.take_succ_cons, List.count_cons, beq_iff_eq, hxo, hxc, if_false]
      omega

/-! ## Helper lemmas: the builder on sequences without excess EndBracket -/

theorem buildLoop_nil (nodeStack : List (List SObject)) :
    buildLoop nodeStack [] = some nodeStack := rfl

/-- When no prefix of the tokens closes more lists than are open, the loop
runs to its end, and the height of the stack follows the brackets. -/
theorem buildLoop_defined (ts : List Token) :
    ∀ nodeStack : List (List SObject), nodeStack ≠ [] →
      NoExcessClose Token.startBracket Token.endBracket (nodeStack.length - 1) ts →
      ∃ final, buildLoop nodeStack ts = some final ∧ final ≠ []
        ∧ final.length + ts.count Token.endBracket
            = nodeStack.length + ts.count Token.startBracket := by
  induction ts with
  | nil =>
    intro nodeStack hne _
    exact ⟨nodeStack, rfl, hne, by simp⟩
  | cons t ts ih =>
    intro nodeStack hne hok
    obtain ⟨top, below, rfl⟩ := List.exists_cons_of_ne_nil hne
    rw [buildLoop_cons]
    cases t with
    | whitespace =>
      rw [noExcessClose_cons_other (by decide) (by decide)] at hok
      obtain ⟨final, h1, h2, h3⟩ := ih (top :: below) hne hok
      refine ⟨final, by simpa [buildStep] using h1, h2, ?_⟩
      simp only [List.count_cons, beq_iff_eq] at h3 ⊢
      simpa using h3
    | startBracket =>
      rw [noExcessClose_cons_open (by decide)] at hok
      obtain ⟨final, h1, h2, h3⟩ := ih ([] :: top :: below) (by simp) (by simpa using hok)
      refine ⟨final, by simpa [buildStep] using h1, h2, ?_⟩
      simp only [List.count_cons, List.length_cons, beq_self_eq_true, if_true] at h3 ⊢
      have : (Token.startBracket == Token.endBracket) = false := by decide
      simp only [this] at h3 ⊢
      simp at h3 ⊢
      omega
    | endBracket =>
      rw [noExcessClose_cons_close (by decide)] at hok
      obtain ⟨hd, hok⟩ := hok
      cases below with
      | nil => simp at hd
      | cons parent below =>
        obtain ⟨final, h1, h2, h3⟩ :=
          ih ((parent ++ [.list top]) :: below) (by simp) (by simpa using hok)
        refine ⟨final, by simpa [buildStep] using h1, h2, ?_⟩
        have : (Token.endBracket == Token.startBracket) = false := by decide
        simp only [List.count_cons, List.length_cons, beq_self_eq_true, if_true, this] at h3 ⊢
        simp at h3 ⊢
        omega
    | name s =>
      rw [noExcessClose_cons_other (by simp) (by simp)] at hok
      obtain ⟨final, h1, h2, h3⟩ := ih ((top ++ [.name s]) :: below) (by simp) (by simpa using hok)
      refine ⟨final, by simpa [buildStep] using h1, h2, ?_⟩
      simp only [List.count_cons, List.length_cons] at h3 ⊢
      simpa using h3
    | number s =>
      rw [noExcessClose_cons_other (by simp) (by simp)] at hok
      obtain ⟨final, h1, h2, h3⟩ :=
        ih ((top ++ [.int (numberValue s)]) :: below) (by simp) (by simpa using hok)
      refine ⟨final, by simpa [buildStep] using h1, h2, ?_⟩
      simp only [List.count_cons, List.length_cons] at h3 ⊢
      simpa using h3

/-- The builder on a token sequence without excess EndBracket: it returns the
root, and the sanity check fires exactly when the bracket totals differ. -/
theorem build_defined (ts : List Token)
    (hok : NoExcessClose Token.startBracket Token.endBracket 0 ts) :
    ∃ r, build ts = some r
      ∧ (r.mismatch = true ↔ ts.count Token.endBracket ≠ ts.count Token.startBracket) := by
  obtain ⟨final, h1, _, h3⟩ := buildLoop_defined ts [[]] (by simp) (by simpa using hok)
  refine ⟨_, by rw [build, h1], ?_⟩
  simp only [List.length_singleton] at h3
  simp only [decide_eq_true_eq]
  omega

/-! ## Helper lemmas: integer extraction from digit strings -/

/-- The number read from a non-empty string of digits is its decimal
value, whatever its size. -/
theorem extractInt_digitString (text : String) (h : isDigitString text = true) :
    extractInt text = some (decimalValue 0 text.data : Int) := by
  obtain ⟨cs⟩ := text
  simp only [isDigitString, Bool.and_eq_true, Bool.not_eq_true', List.all_eq_true] at h
  obtain ⟨hne, hall⟩ := h
  exact extractInt_digits cs (by simpa using hne) hall

/-- The leaf built from a non-empty string of digits: its decimal value when
this fits `int`, and `INT_MAX` when it does not. -/
theorem numberValue_digitString (text : String) (h : isDigitString text = true) :
    numberValue text
      = if (decimalValue 0 text.data : Int) ≤ INT_MAX then (decimalValue 0 text.data : Int)
        else INT_MAX := by
  unfold numberValue
  rw [extractInt_digitString text h]
  by_cases hv : (decimalValue 0 text.data : Int) ≤ INT_MAX
  · rw [if_pos hv]
    exact storedInt_of_range (by omega) hv
  · rw [if_neg hv]
    exact storedInt_of_large (by omega)

/-- The extraction from a non-empty string of digits fails exactly when the
decimal value does not fit `int`. -/
theorem extractFails_digitString (text : String) (h : isDigitString text = true) :
    extractFails text = decide (INT_MAX < (decimalValue 0 text.data : Int)) := by
  unfold extractFails
  rw [extractInt_digitString text h]
  have hmin : ¬ (decimalValue 0 text.data : Int) < INT_MIN := by
    unfold INT_MIN
    omega
  simp [hmin]

theorem extractDigits_no_digit (negative : Bool) (cs : List Char)
    (h : ∀ c ∈ cs, isDigitChar c = false) : extractDigits negative cs = none := by
  have htake : List.takeWhile isDigitChar cs = [] := by
    cases cs with
    | nil => rfl
    | cons c cs => simp [List.takeWhile_cons, h c (by simp)]
  simp [extractDigits, htake]

/-- Nothing is read from a text that holds no digit. -/
theorem extractInt_no_digit (text : String) (h : ∀ c ∈ text.data, isDigitChar c = false) :
    extractInt text = none := by
  have hsub : ∀ c ∈ text.data.dropWhile isStreamSpace, isDigitChar c = false :=
    fun c hc => h c ((List.dropWhile_sublist isStreamSpace).subset hc)
  unfold extractInt
  split
  · rename_i rest hcs
    exact extractDigits_no_digit _ _ (fun c hc => hsub c (by rw [hcs]; simp [hc]))
  · rename_i rest hcs
    exact extractDigits_no_digit _ _ (fun c hc => hsub c (by rw [hcs]; simp [hc]))
  · exact extractDigits_no_digit _ _ hsub

/-! ## Helper lemmas: marks of the tree under construction -/

theorem marksOfList_append (xs ys : List SObject) :
    marksOfList (xs ++ ys) = marksOfList xs ++ marksOfList ys := by
  induction xs with
  | nil => simp [marksOfList]
  | cons x xs ih => simp [marksOfList, ih]

theorem marksOfList_singleton (x : SObject) : marksOfList [x] = SObject.marks x := by
  simp [marksOfList]

/-- One step of the builder adds the mark of its token to the marks of the
stack. -/
theorem buildStep_marks (nodeStack final : List (List SObject)) (t : Token)
    (hnum : Token.numberInRange t = true)
    (h : buildStep nodeStack t = some final) :
    stackMarks final = stackMarks nodeStack ++ Token.marks t := by
  cases t with
  | whitespace =>
    simp only [buildStep, Option.some.injEq] at h
    simp [← h, Token.marks]
  | startBracket =>
    cases nodeStack with
    | nil => simp [buildStep] at h
    | cons top below =>
      simp only [buildStep, Option.some.injEq] at h
      simp [← h, stackMarks, openMarks, marksOfList, Token.marks]
  | endBracket =>
    match nodeStack, h with
    | [], h => simp [buildStep] at h
    | [_], h => simp [buildStep] at h
    | closed :: parent :: below, h =>
      simp only [buildStep, Option.some.injEq] at h
      simp [← h, stackMarks, openMarks, marksOfList_append, marksOfList_singleton,
        SObject.marks, Token.marks]
  | name s =>
    cases nodeStack with
    | nil => simp [buildStep] at h
    | cons top below =>
      simp only [buildStep, Option.some.injEq] at h
      simp [← h, stackMarks, marksOfList_append, marksOfList_singleton, SObject.marks,
        Token.marks]
  | number s =>
    cases nodeStack with
    | nil => simp [buildStep] at h
    | cons top below =>
      simp only [Token.numberInRange, Bool.and_eq_true, decide_eq_true_eq] at hnum
      obtain ⟨hd, hv⟩ := hnum
      simp only [buildStep, Option.some.injEq] at h
      simp [← h, stackMarks, marksOfList_append, marksOfList_singleton, SObject.marks,
        Token.marks, numberValue_digitString s hd, hv]

theorem buildLoop_marks (ts : List Token) :
    ∀ nodeStack final : List (List SObject),
      (∀ t ∈ ts, Token.numberInRange t = true) →
      buildLoop nodeStack ts = some final →
      stackMarks final = stackMarks nodeStack ++ ts.flatMap Token.marks := by
  induction ts with
  | nil =>
    intro nodeStack final _ h
    simp only [buildLoop_nil, Option.some.injEq] at h
    simp [h]
  | cons t ts ih =>
    intro nodeStack final hnum h
    rw [buildLoop_cons] at h
    cases hstep : buildStep nodeStack t with
    | none => simp [hstep] at h
    | some mid =>
      rw [hstep, Option.some_bind] at h
      rw [ih mid final (fun u hu => hnum u (by simp [hu])) h,
        buildStep_marks nodeStack mid t (hnum t (by simp)) hstep]
      simp

/-! ## Helper lemmas: definedness and call depth of the evaluator -/

theorem allNonEmpty_of_mem {l : List SObject} (h : allNonEmptyList l = true) :
    ∀ obj ∈ l, SObject.allNonEmpty obj = true := by
  induction l with
  | nil => intro obj hobj; simp at hobj
  | cons x xs ih =>
    rw [allNonEmptyList, Bool.and_eq_true] at h
    intro obj hobj
    rcases List.mem_cons.1 hobj with rfl | hobj
    · exact h.1
    · exact ih h.2 obj hobj

theorem depth_le_of_mem {l : List SObject} :
    ∀ obj ∈ l, SObject.depth obj ≤ depthOfList l := by
  induction l with
  | nil => intro obj hobj; simp at hobj
  | cons x xs ih =>
    intro obj hobj
    rw [depthOfList]
    rcases List.mem_cons.1 hobj with rfl | hobj
    · exact le_max_left _ _
    · exact le_trans (ih obj hobj) (le_max_right _ _)

theorem plusLoop_defined (rest : List SObject)
    (h : ∀ obj ∈ rest, ∃ v, SObject.eval obj = some v) :
    ∀ sum, ∃ v, plusLoop rest sum = some v := by
  induction rest with
  | nil => intro sum; exact ⟨_, by rw [plusLoop]⟩
  | cons obj rest ih =>
    intro sum
    obtain ⟨v, hv⟩ := h obj (by simp)
    rw [plusLoop, hv]
    cases v with
    | int mValue => exact ih (fun o ho => h o (by simp [ho])) _
    | type _ => exact ⟨_, rfl⟩
    | name _ => exact ⟨_, rfl⟩
    | string _ => exact ⟨_, rfl⟩
    | list _ => exact ⟨_, rfl⟩

/-- Evaluation has a defined result on the trees without empty list. -/
theorem eval_defined (bound : Nat) :
    ∀ x : SObject, SObject.depth x < bound → SObject.allNonEmpty x = true →
      ∃ v, SObject.eval x = some v := by
  induction bound with
  | zero => intro x h; omega
  | succ bound ih =>
    intro x hdepth hne
    cases x with
    | type _ => exact ⟨_, by rw [SObject.eval]⟩
    | name _ => exact ⟨_, by rw [SObject.eval]⟩
    | string _ => exact ⟨_, by rw [SObject.eval]⟩
    | int _ => exact ⟨_, by rw [SObject.eval]⟩
    | list mList =>
      cases mList with
      | nil => simp [SObject.allNonEmpty] at hne
      | cons first rest =>
        simp only [SObject.allNonEmpty, allNonEmptyList, List.isEmpty_cons, Bool.not_false,
          Bool.true_and, Bool.and_eq_true] at hne
        simp only [SObject.depth, depthOfList] at hdepth
        cases first with
        | list l =>
          rw [SObject.eval, SList.eval]
          exact ih (.list l) (by simp only [SObject.depth] at hdepth ⊢; omega) hne.1
        | name mName =>
          rw [SObject.eval, SList.eval]
          by_cases hplus : mName = "+"
          · rw [if_pos hplus]
            apply plusLoop_defined
            intro obj hobj
            have := depth_le_of_mem obj hobj
            exact ih obj (by omega) (allNonEmpty_of_mem hne.2 obj hobj)
          · rw [if_neg hplus]
            exact ⟨_, rfl⟩
        | type s => exact ⟨.list (.type s :: rest), by simp [SObject.eval, SList.eval]⟩
        | string s => exact ⟨.list (.string s :: rest), by simp [SObject.eval, SList.eval]⟩
        | int v => exact ⟨.list (.int v :: rest), by simp [SObject.eval, SList.eval]⟩

theorem plusLoopWith_eq (ev : SObject → Bounded) (rest : List SObject)
    (h : ∀ obj ∈ rest, ev obj = .result (SObject.eval obj)) :
    ∀ sum, plusLoopWith ev rest sum = .result (plusLoop rest sum) := by
  induction rest with
  | nil => intro sum; rw [plusLoopWith, plusLoop]
  | cons obj rest ih =>
    intro sum
    rw [plusLoopWith, plusLoop, h obj (by simp)]
    cases hv : SObject.eval obj with
    | none => rfl
    | some v =>
      cases v with
      | int mValue => exact ih (fun o ho => h o (by simp [ho])) _
      | type _ => rfl
      | name _ => rfl
      | string _ => rfl
      | list _ => rfl

/-- A call depth above the nesting depth of the tree is enough for the
evaluation. -/
theorem evalWithin_eq (budget : Nat) :
    ∀ x : SObject, SObject.depth x < budget →
      evalWithin budget x = .result (SObject.eval x) := by
  induction budget with
  | zero => intro x h; omega
  | succ budget ih =>
    intro x hdepth
    cases x with
    | type _ => rw [evalWithin, SObject.eval]
    | name _ => rw [evalWithin, SObject.eval]
    | string _ => rw [evalWithin, SObject.eval]
    | int _ => rw [evalWithin, SObject.eval]
    | list mList =>
      cases mList with
      | nil => rw [evalWithin, SObject.eval, SList.eval]
      | cons first rest =>
        simp only [SObject.depth, depthOfList] at hdepth
        cases first with
        | list l =>
          rw [evalWithin, SObject.eval, SList.eval]
          exact ih (.list l) (by simp only [SObject.depth] at hdepth ⊢; omega)
        | name mName =>
          rw [evalWithin, SObject.eval, SList.eval]
          by_cases hplus : mName = "+"
          · simp only [if_pos hplus]
            apply plusLoopWith_eq
            intro obj hobj
            have := depth_le_of_mem obj hobj
            exact ih obj (by omega)
          · simp only [if_neg hplus]
        | type _ => simp [evalWithin, SObject.eval, SList.eval]
        | string _ => simp [evalWithin, SObject.eval, SList.eval]
        | int _ => simp [evalWithin, SObject.eval, SList.eval]

/-! ## Helper lemmas: tokens of a printed tree -/

theorem toString_list_data (mList : List SObject) :
    (SObject.toString (.list mList)).data = '(' :: ((toStringLoop mList true).data ++ [')']) := by
  rw [SObject.toString]
  simp only [String.data_append]
  rfl

theorem toStringLoop_cons_data (obj : SObject) (rest : List SObject) (first : Bool) :
    (toStringLoop (obj :: rest) first).data
      = (if first then [] else [' ']) ++ ((SObject.toString obj).data ++ (toStringLoop rest false).data) := by
  rw [toStringLoop]
  simp only [String.data_append]
  cases first <;> rfl

theorem endsInName_of_endsInText {tokens : List Token} (h : endsInText tokens = false) :
    endsInName tokens = false := by
  match tokens, h with
  | [], _ => rfl
  | .whitespace :: _, _ => rfl
  | .startBracket :: _, _ => rfl
  | .endBracket :: _, _ => rfl

/-- A name that follows the tokenizer's rule is read back as one `Name`
token. -/
theorem tokenizeLoop_name_text (tokens : List Token) (mName : String)
    (hname : matchesNameChars mName = true) (hclosed : endsInText tokens = false) :
    tokenizeLoop tokens mName.data = .name mName :: tokens := by
  obtain ⟨cs⟩ := mName
  unfold matchesNameChars at hname
  cases cs with
  | nil => simp at hname
  | cons c cs =>
    simp only [Bool.and_eq_true, List.all_eq_true] at hname
    have hrun : ∀ d ∈ cs, isNameChar d = true ∨ isDigitChar d = true := by
      intro d hd
      have := hname.2 d hd
      rw [isNameChar_eq]
      simp only [Bool.or_eq_true] at this ⊢
      tauto
    exact tokenizeLoop_new_name tokens c cs (endsInName_of_endsInText hclosed) hname.1 hrun

theorem sint_toString_nonneg {v : Int} (h : 0 ≤ v) : SInt.toString v = Nat.repr v.toNat := by
  unfold SInt.toString
  rw [if_neg (by omega)]

/-- The digits of an integer from `0` up are read back as one `Number`
token. -/
theorem tokenizeLoop_int_text (tokens : List Token) (v : Int) (hv : 0 ≤ v)
    (hclosed : endsInText tokens = false) :
    tokenizeLoop tokens (SInt.toString v).data = .number (SInt.toString v) :: tokens := by
  rw [sint_toString_nonneg hv]
  have hall : ∀ c ∈ Nat.toDigits 10 v.toNat, isDigitChar c = true :=
    toDigitsCore_all_digits _ _ _ (by simp)
  have hrepr : Nat.repr v.toNat = String.mk (Nat.toDigits 10 v.toNat) := rfl
  rw [hrepr]
  cases hdig : Nat.toDigits 10 v.toNat with
  | nil => exact absurd hdig (toDigits_ne_nil _)
  | cons d ds =>
    rw [hdig] at hall
    exact tokenizeLoop_new_number tokens d ds hclosed (hall d (by simp))
      (fun c hc => hall c (by simp [hc]))

/-- The last token of a printed tree is not a `Whitespace`. -/
theorem printTokens_endsInSpace (x : SObject) (hx : SObject.printable x = true)
    (tokens : List Token) :
    endsInSpace ((SObject.printTokens x).reverse ++ tokens) = false := by
  cases x with
  | list l => simp [SObject.printTokens, endsInSpace]
  | name _ => simp [SObject.printTokens, endsInSpace]
  | int _ => simp [SObject.printTokens, endsInSpace]
  | string _ => simp [SObject.printable] at hx
  | type _ => simp [SObject.printable] at hx

theorem printable_of_mem {l : List SObject} (h : printableList l = true) :
    ∀ obj ∈ l, SObject.printable obj = true := by
  induction l with
  | nil => intro obj hobj; simp at hobj
  | cons x xs ih =>
    rw [printableList, Bool.and_eq_true] at h
    intro obj hobj
    rcases List.mem_cons.1 hobj with rfl | hobj
    · exact h.1
    · exact ih h.2 obj hobj

/-- The loop of `SList::toString`, read back, when each element is. -/
theorem tokenizeLoop_toStringLoop (l : List SObject)
    (hl : printableList l = true)
    (hobj : ∀ obj ∈ l, ∀ tokens, endsInText tokens = false →
      tokenizeLoop tokens (SObject.toString obj).data = (SObject.printTokens obj).reverse ++ tokens) :
    ∀ (first : Bool) (tokens : List Token),
      (first = true → endsInText tokens = false) →
      (first = false → endsInSpace tokens = false) →
      tokenizeLoop tokens (toStringLoop l first).data
        = (printTokensLoop l first).reverse ++ tokens := by
  induction l with
  | nil =>
    intro first tokens _ _
    rw [toStringLoop, printTokensLoop]
    rfl
  | cons x xs ih =>
    intro first tokens h1 h2
    rw [printableList, Bool.and_eq_true] at hl
    have hrest := ih hl.2 (fun o ho => hobj o (by simp [ho])) false
      ((SObject.printTokens x).reverse ++ (if first then tokens else .whitespace :: tokens))
      (by simp) (fun _ => printTokens_endsInSpace x hl.1 _)
    rw [toStringLoop_cons_data, printTokensLoop]
    cases first with
    | true =>
      simp only [if_true, List.nil_append] at hrest ⊢
      rw [tokenizeLoop_append, hobj x (by simp) tokens (h1 rfl), hrest]
      simp
    | false =>
      simp only [Bool.false_eq_true, if_false] at hrest ⊢
      rw [tokenizeLoop_append, tokenizeLoop_append]
      have hsp : tokenizeLoop tokens [' '] = .whitespace :: tokens :=
        tokenizeStep_new_space tokens (show isSpaceChar ' ' = true by decide) (h2 rfl)
      rw [hsp, hobj x (by simp) (.whitespace :: tokens) rfl, hrest]
      simp

/-- The print form of a printable tree, read after anything but an open
`Name` or `Number` token, gives the tokens `printTokens`. -/
theorem tokenizeLoop_toString (bound : Nat) :
    ∀ x : SObject, SObject.depth x < bound → SObject.printable x = true →
      ∀ tokens, endsInText tokens = false →
        tokenizeLoop tokens (SObject.toString x).data
          = (SObject.printTokens x).reverse ++ tokens := by
  induction bound with
  | zero => intro x h; omega
  | succ bound ih =>
    intro x hdepth hx tokens hclosed
    cases x with
    | type _ => simp [SObject.printable] at hx
    | string _ => simp [SObject.printable] at hx
    | name mName =>
      rw [SObject.toString, SObject.printTokens]
      exact tokenizeLoop_name_text tokens mName hx hclosed
    | int v =>
      simp only [SObject.printable, Bool.and_eq_true, decide_eq_true_eq] at hx
      rw [SObject.toString, SObject.printTokens]
      exact tokenizeLoop_int_text tokens v hx.1 hclosed
    | list l =>
      rw [SObject.printable] at hx
      simp only [SObject.depth] at hdepth
      have hloop := tokenizeLoop_toStringLoop l hx
        (fun obj hobj tokens1 h1 =>
          ih obj (by have := depth_le_of_mem obj hobj; omega) (printable_of_mem hx obj hobj)
            tokens1 h1)
        true (.startBracket :: tokens) (fun _ => rfl) (fun h => by simp at h)
      rw [toString_list_data, tokenizeLoop_cons, tokenizeStep_openParen, tokenizeLoop_append,
        hloop, SObject.printTokens]
      simp [tokenizeLoop, tokenizeStep]

/-- Tokenizing the print form of a printable tree gives `printTokens`. -/
theorem tokenize_toString (x : SObject) (hx : SObject.printable x = true) :
    tokenize (SObject.toString x) = SObject.printTokens x := by
  rw [tokenize, tokenizeLoop_toString (SObject.depth x + 1) x (Nat.lt_succ_self _) hx [] rfl]
  simp

/-! ## Helper lemmas: the builder on the tokens of a printed tree -/

theorem numberValue_toString {v : Int} (h0 : 0 ≤ v) (h1 : v ≤ INT_MAX) :
    numberValue (SInt.toString v) = v := by
  rw [sint_toString_nonneg h0, numberValue_repr v.toNat (by rw [Int.toNat_of_nonneg h0]; exact h1),
    Int.toNat_of_nonneg h0]

theorem buildLoop_append (ts us : List Token) :
    ∀ nodeStack : List (List SObject),
      buildLoop nodeStack (ts ++ us)
        = (buildLoop nodeStack ts).bind (fun mid => buildLoop mid us) := by
  induction ts with
  | nil => intro nodeStack; rfl
  | cons t ts ih =>
    intro nodeStack
    rw [List.cons_append, buildLoop_cons, buildLoop_cons]
    cases buildStep nodeStack t with
    | none => rfl
    | some mid => simp [ih]

/-- The builder on the tokens of the loop of `SList::toString` appends the
elements to the current list, when it does so for each element. -/
theorem buildLoop_printTokensLoop (l : List SObject)
    (hobj : ∀ obj ∈ l, ∀ (currentList : List SObject) (below : List (List SObject)),
      buildLoop (currentList :: below) (SObject.printTokens obj)
        = some ((currentList ++ [obj]) :: below)) :
    ∀ (first : Bool) (currentList : List SObject) (below : List (List SObject)),
      buildLoop (currentList :: below) (printTokensLoop l first)
        = some ((currentList ++ l) :: below) := by
  induction l with
  | nil =>
    intro first currentList below
    rw [printTokensLoop, List.append_nil]
    rfl
  | cons x xs ih =>
    intro first currentList below
    have hrest := ih (fun o ho => hobj o (by simp [ho])) false (currentList ++ [x]) below
    rw [printTokensLoop]
    cases first with
    | true =>
      simp only [if_true, List.nil_append]
      rw [buildLoop_append, hobj x (by simp), Option.some_bind, hrest]
      simp
    | false =>
      simp only [Bool.false_eq_true, if_false, List.singleton_append]
      rw [buildLoop_cons]
      simp only [buildStep, Option.some_bind]
      rw [buildLoop_append, hobj x (by simp), Option.some_bind, hrest]
      simp

/-- The builder on the tokens of a printed tree appends that tree to the
current list. -/
theorem buildLoop_printTokens (bound : Nat) :
    ∀ x : SObject, SObject.depth x < bound → SObject.printable x = true →
      ∀ (currentList : List SObject) (below : List (List SObject)),
        buildLoop (currentList :: below) (SObject.printTokens x)
          = some ((currentList ++ [x]) :: below) := by
  induction bound with
  | zero => intro x h; omega
  | succ bound ih =>
    intro x hdepth hx currentList below
    cases x with
    | type _ => simp [SObject.printable] at hx
    | string _ => simp [SObject.printable] at hx
    | name mName =>
      rw [SObject.printTokens, buildLoop_cons]
      rfl
    | int v =>
      simp only [SObject.printable, Bool.and_eq_true, decide_eq_true_eq] at hx
      rw [SObject.printTokens, buildLoop_cons]
      simp only [buildStep, Option.some_bind, numberValue_toString hx.1 hx.2]
      rfl
    | list l =>
      rw [SObject.printable] at hx
      simp only [SObject.depth] at hdepth
      have hloop := buildLoop_printTokensLoop l
        (fun obj hobj cur bel =>
          ih obj (by have := depth_le_of_mem obj hobj; omega) (printable_of_mem hx obj hobj)
            cur bel)
        true [] (currentList :: below)
      rw [SObject.printTokens, buildLoop_cons]
      simp only [buildStep, Option.some_bind]
      rw [buildLoop_append, hloop, Option.some_bind, buildLoop_cons]
      simp only [buildStep, Option.some_bind, List.nil_append]
      rfl

/-- Printing a printable tree, tokenizing and building gives a root whose
only child is that tree, with no mismatch reported. -/
theorem build_tokenize_toString (x : SObject) (hx : SObject.printable x = true) :
    build (tokenize (SObject.toString x)) = some { rootList := .list [x], mismatch := false } := by
  rw [tokenize_toString x hx, build,
    buildLoop_printTokens (SObject.depth x + 1) x (Nat.lt_succ_self _) hx [] []]
  rfl

/-! ## Helper lemmas: the trees the builder makes are printable -/

theorem printableList_append (xs ys : List SObject) :
    printableList (xs ++ ys) = (printableList xs && printableList ys) := by
  induction xs with
  | nil => simp [printableList]
  | cons x xs ih => simp [printableList, ih, Bool.and_assoc]

theorem numberValue_printable (text : String) (h : isDigitString text = true) :
    SObject.printable (.int (numberValue text)) = true := by
  rw [numberValue_digitString text h]
  simp only [SObject.printable, Bool.and_eq_true, decide_eq_true_eq]
  by_cases hv : (decimalValue 0 text.data : Int) ≤ INT_MAX
  · rw [if_pos hv]
    exact ⟨by omega, hv⟩
  · rw [if_neg hv]
    exact ⟨by decide, le_refl _⟩

theorem buildStep_printable (nodeStack final : List (List SObject)) (t : Token)
    (ht : Token.wellFormed t = true)
    (hstack : ∀ frame ∈ nodeStack, printableList frame = true)
    (h : buildStep nodeStack t = some final) :
    ∀ frame ∈ final, printableList frame = true := by
  cases t with
  | whitespace =>
    simp only [buildStep, Option.some.injEq] at h
    rw [← h]
    exact hstack
  | startBracket =>
    cases nodeStack with
    | nil => simp [buildStep] at h
    | cons top below =>
      simp only [buildStep, Option.some.injEq] at h
      rw [← h]
      intro frame hf
      rcases List.mem_cons.1 hf with rfl | hf
      · rfl
      · exact hstack frame hf
  | endBracket =>
    match nodeStack, hstack, h with
    | [], _, h => simp [buildStep] at h
    | [_], _, h => simp [buildStep] at h
    | closed :: parent :: below, hstack, h =>
      simp only [buildStep, Option.some.injEq] at h
      rw [← h]
      intro frame hf
      rcases List.mem_cons.1 hf with rfl | hf
      · rw [printableList_append, hstack parent (by simp)]
        simp [printableList, SObject.printable, hstack closed (by simp)]
      · exact hstack frame (by simp [hf])
  | name s =>
    cases nodeStack with
    | nil => simp [buildStep] at h
    | cons top below =>
      simp only [buildStep, Option.some.injEq] at h
      rw [← h]
      intro frame hf
      rcases List.mem_cons.1 hf with rfl | hf
      · rw [printableList_append, hstack top (by simp)]
        simpa [printableList, SObject.printable, Token.wellFormed] using ht
      · exact hstack frame (by simp [hf])
  | number s =>
    cases nodeStack with
    | nil => simp [buildStep] at h
    | cons top below =>
      simp only [buildStep, Option.some.injEq] at h
      rw [← h]
      intro frame hf
      rcases List.mem_cons.1 hf with rfl | hf
      · rw [printableList_append, hstack top (by simp)]
        simp only [Token.wellFormed] at ht
        simp [printableList, numberValue_printable s ht]
      · exact hstack frame (by simp [hf])

theorem buildLoop_printable (ts : List Token) :
    ∀ nodeStack final : List (List SObject),
      (∀ t ∈ ts, Token.wellFormed t = true) →
      (∀ frame ∈ nodeStack, printableList frame = true) →
      buildLoop nodeStack ts = some final →
      ∀ frame ∈ final, printableList frame = true := by
  induction ts with
  | nil =>
    intro nodeStack final _ hstack h
    simp only [buildLoop_nil, Option.some.injEq] at h
    rw [← h]
    exact hstack
  | cons t ts ih =>
    intro nodeStack final hts hstack h
    rw [buildLoop_cons] at h
    cases hstep : buildStep nodeStack t with
    | none => simp [hstep] at h
    | some mid =>
      rw [hstep, Option.some_bind] at h
      exact ih mid final (fun u hu => hts u (by simp [hu]))
        (buildStep_printable nodeStack mid t (hts t (by simp)) hstack hstep) h

theorem closeInto_printable (below : List (List SObject)) :
    ∀ children : List SObject, printableList children = true →
      (∀ frame ∈ below, printableList frame = true) →
      printableList (closeInto children below) = true := by
  induction below with
  | nil => intro children h _; exact h
  | cons parent below ih =>
    intro children h hbelow
    rw [closeInto]
    apply ih
    · rw [printableList_append, hbelow parent (by simp)]
      simp [printableList, SObject.printable, h]
    · exact fun frame hf => hbelow frame (by simp [hf])

/-- The root the builder makes from the tokens of a text is printable. -/
theorem build_printable (src : String) (r : BuildResult) (h : build (tokenize src) = some r) :
    SObject.printable r.rootList = true := by
  unfold build at h
  cases hloop : buildLoop [[]] (tokenize src) with
  | none => simp [hloop] at h
  | some final =>
    rw [hloop] at h
    simp only [Option.some.injEq] at h
    have hframes := buildLoop_printable (tokenize src) [[]] final (tokenize_wellFormed src)
      (by simp [printableList]) hloop
    rw [← h, SObject.printable]
    cases final with
    | nil => rfl
    | cons top below =>
      exact closeInto_printable below top (hframes top (by simp))
        (fun frame hf => hframes frame (by simp [hf]))

/-! ## Helper lemmas: brackets of the text and of the tokens -/

theorem noExcessClose_filterMap {α : Type} [DecidableEq α] {o c : α} (hoc : o ≠ c)
    (kind : α → Option Bool) (hopen : ∀ x, kind x = some true ↔ x = o)
    (hclose : ∀ x, kind x = some false ↔ x = c) (xs : List α) :
    ∀ d, NoExcessClose o c d xs ↔ NoExcessClose true false d (xs.filterMap kind) := by
  induction xs with
  | nil =>
    intro d
    exact ⟨fun _ => noExcessClose_nil _ _ _, fun _ => noExcessClose_nil _ _ _⟩
  | cons x xs ih =>
    intro d
    cases hk : kind x with
    | none =>
      have hxo : x ≠ o := fun h => by rw [(hopen x).2 h] at hk; cases hk
      have hxc : x ≠ c := fun h => by rw [(hclose x).2 h] at hk; cases hk
      rw [noExcessClose_cons_other hxo hxc, List.filterMap_cons_none hk, ih]
    | some b =>
      cases b with
      | true =>
        obtain rfl := (hopen x).1 hk
        rw [noExcessClose_cons_open hoc, List.filterMap_cons_some hk,
          noExcessClose_cons_open (by decide), ih]
      | false =>
        obtain rfl := (hclose x).1 hk
        rw [noExcessClose_cons_close hoc, List.filterMap_cons_some hk,
          noExcessClose_cons_close (by decide), ih]

theorem count_filterMap_bracket {α : Type} [DecidableEq α] {x0 : α} (b : Bool)
    (kind : α → Option Bool) (hkind : ∀ x, kind x = some b ↔ x = x0) (xs : List α) :
    (xs.filterMap kind).count b = xs.count x0 := by
  induction xs with
  | nil => rfl
  | cons x xs ih =>
    cases hk : kind x with
    | none =>
      have hx : x ≠ x0 := fun h => by rw [(hkind x).2 h] at hk; cases hk
      rw [List.filterMap_cons_none hk, ih, List.count_cons_of_ne (Ne.symm hx)]
    | some b1 =>
      rw [List.filterMap_cons_some hk]
      by_cases hb : b1 = b
      · subst hb
        obtain rfl := (hkind x).1 hk
        rw [List.count_cons_self, List.count_cons_self, ih]
      · have hx : x ≠ x0 := fun h => by
          have hk2 := (hkind x).2 h
          rw [hk] at hk2
          exact hb (Option.some.inj hk2)
        rw [List.count_cons_of_ne (Ne.symm hb), List.count_cons_of_ne (Ne.symm hx), ih]

theorem charBracket_open (c : Char) : charBracket c = some true ↔ c = '(' := by
  unfold charBracket
  constructor
  · intro h
    by_contra hne
    rw [if_neg hne] at h
    split at h <;> cases h
  · rintro rfl
    rfl

theorem charBracket_close (c : Char) : charBracket c = some false ↔ c = ')' := by
  unfold charBracket
  constructor
  · intro h
    by_contra hne
    rw [if_neg hne] at h
    split at h <;> cases h
  · rintro rfl
    rfl

theorem tokenBracket_open (t : Token) : Token.bracket t = some true ↔ t = .startBracket := by
  cases t <;> simp [Token.bracket]

theorem tokenBracket_close (t : Token) : Token.bracket t = some false ↔ t = .endBracket := by
  cases t <;> simp [Token.bracket]

theorem charBracket_none {c : Char} (h1 : c ≠ '(') (h2 : c ≠ ')') : charBracket c = none := by
  simp [charBracket, h1, h2]

theorem charBracket_of_not_tokenChar {c : Char} (h : isTokenChar c = false) :
    charBracket c = none := by
  rw [← Bool.not_eq_true, isTokenChar_iff] at h
  exact charBracket_none (fun e => h (Or.inr (Or.inr (Or.inl e))))
    (fun e => h (Or.inr (Or.inr (Or.inr e))))

theorem charBracket_of_digit {c : Char} (h : isDigitChar c = true) : charBracket c = none :=
  charBracket_none (isDigitChar_ne_open h) (isDigitChar_ne_close h)

theorem charBracket_of_nameChar {c : Char} (h : isNameChar c = true) : charBracket c = none :=
  charBracket_none (isNameChar_classes h).1 (isNameChar_classes h).2.1

/-- One step adds the bracket of the character, if it is one, to the brackets
of the tokens. -/
theorem tokenizeStep_bracket (tokens : List Token) (c : Char) :
    (tokenizeStep tokens c).reverse.filterMap Token.bracket
      = tokens.reverse.filterMap Token.bracket ++ (charBracket c).toList := by
  rcases tokenizeStep_shape tokens c with ⟨h, e⟩ | ⟨h, e⟩ | ⟨rfl, e⟩ | ⟨rfl, e⟩ | ⟨h, e⟩ | ⟨h, e⟩
    | ⟨s, older, rfl, h, e⟩ | ⟨s, older, rfl, h, e⟩
  · simp [e, charBracket_of_not_tokenChar h]
  · simp [e, charBracket_of_not_tokenChar h, Token.bracket]
  · rw [e]; simp [Token.bracket, charBracket]
  · rw [e]; simp [Token.bracket, charBracket]
  · simp [e, charBracket_of_digit h, Token.bracket]
  · simp [e, charBracket_of_nameChar h, Token.bracket]
  · have hb : charBracket c = none := by
      rcases h with h | h
      · exact charBracket_of_nameChar h
      · exact charBracket_of_digit h
    simp [e, hb, Token.bracket]
  · simp [e, charBracket_of_digit h, Token.bracket]

theorem tokenizeLoop_bracket (cs : List Char) :
    ∀ tokens, (tokenizeLoop tokens cs).reverse.filterMap Token.bracket
      = tokens.reverse.filterMap Token.bracket ++ cs.filterMap charBracket := by
  induction cs with
  | nil => intro tokens; simp [tokenizeLoop]
  | cons c cs ih =>
    intro tokens
    rw [tokenizeLoop_cons, ih, tokenizeStep_bracket]
    cases h : charBracket c <;> simp [h]

/-- The brackets of the tokens are the parentheses of the text, in order. -/
theorem tokenize_bracket (src : String) :
    (tokenize src).filterMap Token.bracket = src.data.filterMap charBracket := by
  rw [tokenize, tokenizeLoop_bracket]
  rfl

theorem tokenize_noExcessClose (src : String) (d : Nat) :
    NoExcessClose Token.startBracket Token.endBracket d (tokenize src)
      ↔ NoExcessClose '(' ')' d src.data := by
  rw [noExcessClose_filterMap (by decide) Token.bracket tokenBracket_open tokenBracket_close,
    noExcessClose_filterMap (by decide) charBracket charBracket_open charBracket_close,
    tokenize_bracket]

theorem tokenize_count_close (src : String) :
    (tokenize src).count Token.endBracket = src.data.count ')' := by
  rw [← count_filterMap_bracket false Token.bracket tokenBracket_close,
    ← count_filterMap_bracket false charBracket charBracket_close, tokenize_bracket]

theorem tokenize_count_open (src : String) :
    (tokenize src).count Token.startBracket = src.data.count '(' := by
  rw [← count_filterMap_bracket true Token.bracket tokenBracket_open,
    ← count_filterMap_bracket true charBracket charBracket_open, tokenize_bracket]

/-! ## Claims -/

/-- C1. The pipeline (tokenizer, tree builder, evaluator on the root list) on
the source text `(+ 2 (+ 30 10))` produces `Int(42)`. -/
theorem C1_pipeline_42 : run "(+ 2 (+ 30 10))" = some (.int 42) := by
  rfl

/-- C2. A list with head `Name("+")` whose remaining children evaluate to the
integers `vs`, every running sum being in the range of `int`, evaluates to
`Int(s)` with `s` the sum of `vs`; with no remaining child, as in the tree of
`(+)`, the result is `Int(0)`. -/
theorem C2_plus_sum (rest : List SObject) (vs : List Int)
    (hargs : List.Forall₂ (fun obj v => obj.eval = some (SObject.int v)) rest vs)
    (hrange : ∀ n, n ≤ vs.length → INT_MIN ≤ (vs.take n).sum ∧ (vs.take n).sum ≤ INT_MAX) :
    (SObject.list (.name "+" :: rest)).eval = some (.int vs.sum)
      ∧ (SObject.list [.name "+"]).eval = some (.int 0)
      ∧ run "(+)" = some (.int 0) := by
  refine ⟨?_, rfl, rfl⟩
  rw [eval_plus, plusLoop_sum hargs 0 (by simpa using hrange), zero_add]

/-- Witness of C2: the arguments `1`, `(+ 2 3)` and `36`. -/
theorem C2_plus_sum_witness :
    (SObject.list [.name "+", .int 1, .list [.name "+", .int 2, .int 3], .int 36]).eval
        = some (.int 42)
      ∧ (SObject.list [.name "+"]).eval = some (.int 0)
      ∧ run "(+)" = some (.int 0) :=
  C2_plus_sum [.int 1, .list [.name "+", .int 2, .int 3], .int 36] [1, 5, 36]
    (.cons rfl (.cons rfl (.cons rfl .nil)))
    (by
      intro n hn
      have hn3 : n ≤ 3 := hn
      interval_cases n <;> simp [INT_MIN, INT_MAX])

/-- C3. A list with head `Name("+")` in which a remaining child evaluates to a
value that is not an integer, the children before it evaluating to integers,
evaluates to the sentinel `Int(0)`, whatever the partial sum and whatever the
children after it (they are not evaluated: they may even have no defined
value); the tree of `(+ 1 foo)` evaluates to `Int(0)`. -/
theorem C3_plus_non_int (pre : List SObject) (bad r : SObject) (post : List SObject)
    (hpre : ∀ obj ∈ pre, ∃ v, obj.eval = some (SObject.int v))
    (hbad : bad.eval = some r) (hr : ∀ v, r ≠ SObject.int v) :
    (SObject.list (.name "+" :: (pre ++ bad :: post))).eval = some (.int 0)
      ∧ run "(+ 1 foo)" = some (.int 0) := by
  refine ⟨?_, rfl⟩
  rw [eval_plus]
  exact plusLoop_abort pre bad r post hpre hbad hr 0

/-- Witness of C3: `(+ 1 foo ())`, whose last child has no defined value. -/
theorem C3_plus_non_int_witness :
    (SObject.list [.name "+", .int 1, .name "foo", .list []]).eval = some (.int 0)
      ∧ run "(+ 1 foo)" = some (.int 0) :=
  C3_plus_non_int [.int 1] (.name "foo") (.name "foo") [.list []]
    (by
      intro obj hobj
      rw [List.mem_singleton] at hobj
      exact ⟨1, by rw [hobj]; rfl⟩)
    rfl
    (by intro v h; cases h)

/-- C4. A list whose head is a name other than `+` evaluates to the sentinel
`String("ERR")` whatever its remaining children are, also when one of them has
no defined value of its own (an empty list); the tree of `(foo 1 2)` evaluates
to `String("ERR")`. -/
theorem C4_unknown_name (mName : String) (rest : List SObject) (hname : mName ≠ "+") :
    (SObject.list (.name mName :: rest)).eval = some (.string "ERR")
      ∧ run "(foo 1 2)" = some (.string "ERR") := by
  refine ⟨?_, rfl⟩
  rw [SObject.eval, SList.eval]
  simp [hname]

/-- Witness of C4: `(foo ())`, whose second child is an empty list. -/
theorem C4_unknown_name_witness :
    (SObject.list []).eval = none
      ∧ (SObject.list [.name "foo", .list []]).eval = some (.string "ERR")
      ∧ run "(foo 1 2)" = some (.string "ERR") :=
  ⟨rfl, C4_unknown_name "foo" [.list []] (by decide)⟩

/-- C5. A list whose first child is itself a list evaluates to what that first
child evaluates to; the remaining children play no part. -/
theorem C5_head_list (head rest : List SObject) :
    (SObject.list (.list head :: rest)).eval = (SObject.list head).eval := by
  rw [SObject.eval, SList.eval]

/-- C6. `eval` is the identity on the atoms (`Type`, `Name`, `String`, `Int`)
and on the non-empty lists whose head is an `Int`, a `String` or a `Type`; the
root built from the source `5` evaluates to the list `(5)`. -/
theorem C6_eval_identity :
    (∀ s, (SObject.type s).eval = some (.type s))
      ∧ (∀ s, (SObject.name s).eval = some (.name s))
      ∧ (∀ s, (SObject.string s).eval = some (.string s))
      ∧ (∀ v, (SObject.int v).eval = some (.int v))
      ∧ (∀ v rest, (SObject.list (.int v :: rest)).eval = some (.list (.int v :: rest)))
      ∧ (∀ s rest, (SObject.list (.string s :: rest)).eval = some (.list (.string s :: rest)))
      ∧ (∀ s rest, (SObject.list (.type s :: rest)).eval = some (.list (.type s :: rest)))
      ∧ run "5" = some (.list [.int 5]) := by
  refine ⟨?_, ?_, ?_, ?_, ?_, ?_, ?_, rfl⟩
  · intro s; rw [SObject.eval]
  · intro s; rw [SObject.eval]
  · intro s; rw [SObject.eval]
  · intro v; rw [SObject.eval]
  · intro v rest; simp [SObject.eval, SList.eval]
  · intro s rest; simp [SObject.eval, SList.eval]
  · intro s rest; simp [SObject.eval, SList.eval]

/-- C7, as stated, fails: with one pair of parentheses around `5` the pipeline
returns the list `(5)` and not `Int(5)`. -/
theorem C7_nested_not_int :
    nestedText 1 5 = "(5)" ∧ run (nestedText 1 5) = some (.list [.int 5])
      ∧ run (nestedText 1 5) ≠ some (.int 5) := by
  refine ⟨rfl, rfl, ?_⟩
  intro h
  have h2 : run (nestedText 1 5) = some (.list [.int 5]) := rfl
  rw [h2] at h
  cases h

/-- C7, amended. For `n ≥ 1` and an integer literal `k` in the range of `int`,
the text of `n` opening parentheses, the digits of `k` and `n` closing
parentheses is built, with no bracket mismatch, into `Int(k)` wrapped in `n + 1`
lists (the root included), and evaluates to the innermost list `(k)`, the
one-element list holding `Int(k)`. -/
theorem C7_nested_list (n k : Nat) (hn : 1 ≤ n) (hk : (k : Int) ≤ INT_MAX) :
    build (tokenize (nestedText n k))
        = some { rootList := nest (n + 1) (.int k), mismatch := false }
      ∧ run (nestedText n k) = some (.list [.int k]) := by
  have hbuild : build (tokenize (nestedText n k))
      = some { rootList := nest (n + 1) (.int k), mismatch := false } := by
    have hloop : buildLoop [[]] (tokenize (nestedText n k)) = some [[nest n (.int k)]] := by
      rw [tokenize_nestedText n k hn, buildLoop_open, ← List.replicate_succ',
        List.replicate_succ, buildLoop_cons]
      simp only [buildStep, Option.some_bind, List.nil_append, numberValue_repr k hk]
      have h := buildLoop_close n (.int k) []
      rw [List.append_nil] at h
      rw [h]
      rfl
    unfold build
    rw [hloop]
    rfl
  refine ⟨hbuild, ?_⟩
  unfold run
  rw [hbuild]
  exact eval_nest_int n k

/-- Witness of C7 amended: 1000 nested parentheses around `7`. -/
theorem C7_nested_list_witness :
    build (tokenize (nestedText 1000 7))
        = some { rootList := nest 1001 (.int 7), mismatch := false }
      ∧ run (nestedText 1000 7) = some (.list [.int 7]) :=
  C7_nested_list 1000 7 (by decide) (by decide)

/-- C8 fails on the code: `SList::eval` takes `mList.front()` with no test for
emptiness, so the evaluation of an empty list has no defined result (and no
report); this is the case for the root built from the empty text and for the
inner list built from `()`. -/
theorem C8_empty_list_unguarded :
    SList.eval [] = none ∧ (SObject.list []).eval = none
      ∧ build (tokenize "") = some { rootList := .list [], mismatch := false }
      ∧ run "" = none
      ∧ build (tokenize "()") = some { rootList := .list [.list []], mismatch := false }
      ∧ run "()" = none :=
  ⟨rfl, rfl, rfl, rfl, rfl, rfl⟩

/-- C9. Tokenizing `(+ 2 (+ 30 10))` yields the 13 tokens StartBracket,
Name("+"), Whitespace, Number("2"), Whitespace, StartBracket, Name("+"),
Whitespace, Number("30"), Whitespace, Number("10"), EndBracket, EndBracket. -/
theorem C9_tokens :
    tokenize "(+ 2 (+ 30 10))"
      = [.startBracket, .name "+", .whitespace, .number "2", .whitespace, .startBracket,
         .name "+", .whitespace, .number "30", .whitespace, .number "10", .endBracket,
         .endBracket] := by
  decide

/-- C10. The tree builder on the tokens of `(+ 2 (+ 30 10))` yields a root list
with one child, the list of `Name("+")`, `Int(2)` and the list of `Name("+")`,
`Int(30)`, `Int(10)`, and reports no bracket mismatch. -/
theorem C10_tree :
    build (tokenize "(+ 2 (+ 30 10))")
      = some { rootList := .list [.list [.name "+", .int 2,
                                         .list [.name "+", .int 30, .int 10]]],
               mismatch := false } := by
  rfl

/-- C11, as stated, fails: the root parsed from `(+ 1 2)` prints as
`((+ 1 2))`, and the tree parsed from that is not the original root but a root
holding it as its only child. -/
theorem C11_roundtrip_not_identical :
    balancedText "(+ 1 2)"
      ∧ build (tokenize "(+ 1 2)")
          = some { rootList := .list [.list [.name "+", .int 1, .int 2]], mismatch := false }
      ∧ SObject.toString (.list [.list [.name "+", .int 1, .int 2]]) = "((+ 1 2))"
      ∧ build (tokenize "((+ 1 2))")
          = some { rootList := .list [.list [.list [.name "+", .int 1, .int 2]]],
                   mismatch := false }
      ∧ SObject.list [.list [.list [.name "+", .int 1, .int 2]]]
          ≠ SObject.list [.list [.name "+", .int 1, .int 2]] := by
  refine ⟨by decide, rfl, by decide, rfl, ?_⟩
  intro h
  simp at h

/-- C11, amended. For a text with balanced brackets the builder returns a
root and reports no mismatch, and the print form of that root, tokenized and
built again, gives (again with no mismatch) a root whose only child is the
original root. -/
theorem C11_roundtrip_one_level (src : String) (hbal : balancedText src) :
    ∃ r, build (tokenize src) = some r ∧ r.mismatch = false
      ∧ build (tokenize (SObject.toString r.rootList))
          = some { rootList := .list [r.rootList], mismatch := false } := by
  obtain ⟨hok, htotal⟩ := hbal
  obtain ⟨r, hr, hm⟩ := build_defined (tokenize src) ((tokenize_noExcessClose src 0).2 hok)
  rw [tokenize_count_close, tokenize_count_open] at hm
  refine ⟨r, hr, ?_, build_tokenize_toString r.rootList (build_printable src r hr)⟩
  cases hmm : r.mismatch with
  | false => rfl
  | true => exact absurd htotal (hm.1 hmm)

/-- Witness of C11 amended: the text `(+ 2 (+ 30 10))`. -/
theorem C11_roundtrip_one_level_witness :
    ∃ r, build (tokenize "(+ 2 (+ 30 10))") = some r ∧ r.mismatch = false
      ∧ build (tokenize (SObject.toString r.rootList))
          = some { rootList := .list [r.rootList], mismatch := false } :=
  C11_roundtrip_one_level "(+ 2 (+ 30 10))" (by decide)

/-- C12 fails on the code: an EndBracket with only the root on the stack pops
the root and then calls `top()` on the empty stack, so the builder has no
defined result on the tokens of `(+ 1 2))`, nor on a lone EndBracket.  (With
EndBrackets missing, as in `(+ 1 2`, it returns the root and reports the
mismatch.) -/
theorem C12_extra_close_undefined :
    build (tokenize "(+ 1 2))") = none
      ∧ build [.endBracket] = none
      ∧ buildStep [[]] .endBracket = none
      ∧ build (tokenize "(+ 1 2")
          = some { rootList := .list [.list [.name "+", .int 1, .int 2]], mismatch := true } :=
  ⟨rfl, rfl, rfl, rfl⟩

/-- C13. Unrecognized characters are ignored: tokenizing a text gives the same
tokens as tokenizing it with every character other than letters, digits, `+`,
parentheses, space, tab and newline removed; such a character leaves the token
list, the open token included, as it is; `a-b` gives the one token
`Name("ab")`. -/
theorem C13_unrecognized_ignored (s : String) (tokens : List Token) (c : Char)
    (hc : isRecognized c = false) :
    tokenize s = tokenize (String.mk (s.data.filter isRecognized))
      ∧ tokenizeStep tokens c = tokens
      ∧ tokenize "a-b" = [.name "ab"] := by
  refine ⟨?_, tokenizeStep_unrecognized tokens hc, by decide⟩
  simp only [tokenize]
  rw [tokenizeLoop_filter]

/-- Witness of C13: the text `a-b` and the character `-` after the open token
`Name("a")`. -/
theorem C13_unrecognized_ignored_witness :
    tokenize "a-b" = tokenize (String.mk ("a-b".data.filter isRecognized))
      ∧ tokenizeStep [.name "a"] '-' = [.name "a"]
      ∧ tokenize "a-b" = [.name "ab"] :=
  C13_unrecognized_ignored "a-b" [.name "a"] '-' (by decide)

/-- C15, as stated, fails: `a+` is tokenized into the one token `Name("a+")`,
whose second character is neither a letter nor a digit. -/
theorem C15_name_rule_fails :
    tokenize "a+" = [.name "a+"] ∧ matchesNameRule "a+" = false := by
  decide

/-- C15, amended. Every `Name` token of the tokenizer, for every text, is
non-empty, starts with a letter or `+`, and continues with letters, digits and
`+` only. -/
theorem C15_name_chars (src text : String) (h : Token.name text ∈ tokenize src) :
    matchesNameChars text = true :=
  tokenize_wellFormed src (.name text) h

/-- Witness of C15 amended: the token of `a+`. -/
theorem C15_name_chars_witness :
    Token.name "a+" ∈ tokenize "a+" ∧ matchesNameChars "a+" = true :=
  ⟨by decide, C15_name_chars "a+" "a+" (by decide)⟩

/-- C16. On a tree all of whose lists are non-empty the evaluation ends with a
value, and the calls of `eval` nested in one another never exceed the nesting
depth of the tree by more than the outermost call: run with any larger bound
on the call depth, the evaluator gives the result of `eval`. -/
theorem C16_eval_terminates (x : SObject) (hne : SObject.allNonEmpty x = true) :
    (∃ v, SObject.eval x = some v)
      ∧ ∀ budget, SObject.depth x < budget → evalWithin budget x = .result (SObject.eval x) :=
  ⟨eval_defined (SObject.depth x + 1) x (Nat.lt_succ_self _) hne,
   fun budget h => evalWithin_eq budget x h⟩

/-- Witness of C16: the tree of `(+ 2 (+ 30 10))`, of nesting depth 3,
evaluated with a call depth of 4. -/
theorem C16_eval_terminates_witness :
    SObject.depth (.list [.list [.name "+", .int 2, .list [.name "+", .int 30, .int 10]]]) = 3
      ∧ (∃ v, SObject.eval (.list [.list [.name "+", .int 2, .list [.name "+", .int 30, .int 10]]])
          = some v)
      ∧ evalWithin 4 (.list [.list [.name "+", .int 2, .list [.name "+", .int 30, .int 10]]])
          = .result
              (SObject.eval
                (.list [.list [.name "+", .int 2, .list [.name "+", .int 30, .int 10]]])) :=
  ⟨rfl,
   (C16_eval_terminates
      (.list [.list [.name "+", .int 2, .list [.name "+", .int 30, .int 10]]]) rfl).1,
   (C16_eval_terminates
      (.list [.list [.name "+", .int 2, .list [.name "+", .int 30, .int 10]]]) rfl).2 4
      (by decide)⟩

/-- C17. For a non-empty digit string `d` and a non-empty letter string `a`,
the text `d` followed by `a` gives the two tokens `Number(d)`, `Name(a)`, and
the text `a` followed by `d` gives the one token `Name(a followed by d)`. -/
theorem C17_extension_asymmetry (d a : String)
    (hd : d.data ≠ []) (hdigits : ∀ c ∈ d.data, isDigitChar c = true)
    (ha : a.data ≠ []) (hletters : ∀ c ∈ a.data, isLetter c = true) :
    tokenize (d ++ a) = [.number d, .name a] ∧ tokenize (a ++ d) = [.name (a ++ d)] := by
  obtain ⟨dl⟩ := d
  obtain ⟨al⟩ := a
  cases dl with
  | nil => exact absurd rfl hd
  | cons d0 ds =>
    cases al with
    | nil => exact absurd rfl ha
    | cons a0 as =>
      have hds : ∀ c ∈ ds, isDigitChar c = true := fun c hc => hdigits c (by simp [hc])
      have has : ∀ c ∈ as, isNameChar c = true ∨ isDigitChar c = true :=
        fun c hc => Or.inl (isNameChar_of_letter (hletters c (by simp [hc])))
      constructor
      · have hdata : (String.mk (d0 :: ds) ++ String.mk (a0 :: as)).data
            = (d0 :: ds) ++ (a0 :: as) := by simp
        rw [tokenize, hdata, tokenizeLoop_append,
          tokenizeLoop_new_number [] d0 ds rfl (hdigits d0 (by simp)) hds,
          tokenizeLoop_new_name [.number (String.mk (d0 :: ds))] a0 as rfl (isNameChar_of_letter (hletters a0 (by simp))) has]
        rfl
      · have hdata : (String.mk (a0 :: as) ++ String.mk (d0 :: ds)).data
            = a0 :: (as ++ (d0 :: ds)) := by simp
        have hrun : ∀ c ∈ as ++ (d0 :: ds), isNameChar c = true ∨ isDigitChar c = true := by
          intro c hc
          rcases List.mem_append.1 hc with hc | hc
          · exact has c hc
          · exact Or.inr (hdigits c hc)
        rw [tokenize, hdata,
          tokenizeLoop_new_name [] a0 _ rfl (isNameChar_of_letter (hletters a0 (by simp))) hrun]
        have hs : String.mk (a0 :: (as ++ d0 :: ds)) = String.mk (a0 :: as) ++ String.mk (d0 :: ds) := by
          apply String.ext
          simp
        rw [hs]
        rfl

/-- Witness of C17: the digits `12` and the letters `ab`. -/
theorem C17_extension_asymmetry_witness :
    tokenize ("12" ++ "ab") = [.number "12", .name "ab"]
      ∧ tokenize ("ab" ++ "12") = [.name ("ab" ++ "12")] :=
  C17_extension_asymmetry "12" "ab" (by decide) (by decide) (by decide) (by decide)

/-- C19. The texts of the tokens, in order (`(` for a StartBracket, `)` for an
EndBracket, the text of a Name or Number, nothing for a Whitespace), make up
the source text without the characters that are not a letter, a digit, `+`,
`(` or `)`. -/
theorem C19_tokens_cover_text (s : String) :
    (tokenize s).flatMap Token.text = s.data.filter isTokenChar := by
  rw [tokenize, tokenizeLoop_text]
  rfl

/-- C20. For a text in which no prefix has more `)` than `(`, the builder
returns a root, and the print form of that root, tokenized and built, gives a
root list with exactly one child, which is the original root; no mismatch is
reported for the printed text.  (Nothing has to be asked of the integer
literals: one that is out of range is built as `Int(2147483647)`, which is
printed and read back as such.) -/
theorem C20_print_adds_level (src : String) (hok : NoExcessClose '(' ')' 0 src.data) :
    ∃ r, build (tokenize src) = some r
      ∧ build (tokenize (SObject.toString r.rootList))
          = some { rootList := .list [r.rootList], mismatch := false } := by
  obtain ⟨r, hr, _⟩ := build_defined (tokenize src) ((tokenize_noExcessClose src 0).2 hok)
  exact ⟨r, hr, build_tokenize_toString r.rootList (build_printable src r hr)⟩

/-- Witness of C20: the text `(a (b 7`, in which two lists are left open. -/
theorem C20_print_adds_level_witness :
    ∃ r, build (tokenize "(a (b 7") = some r
      ∧ build (tokenize (SObject.toString r.rootList))
          = some { rootList := .list [r.rootList], mismatch := false } :=
  C20_print_adds_level "(a (b 7" (by decide)

end Smisp
